import Mathlib

/-
Verification of the segmented, checkpointed crawl engine in src/scrape.js
(the scraper of steebchen/llmgateway-bulk).

Shallow embedding conventions:
- Calendar dates are modelled at day granularity as integers (days since an
  arbitrary epoch).  scrape.js manipulates whole days (setDate / getDate with
  both endpoints at midnight UTC at every call site) and stores segments as
  YYYY-MM-DD strings, so one Int per date is faithful.
- The SQLite emails table is a list of rows; the UNIQUE constraint on the
  email column is realised by the INSERT OR IGNORE guard in saveEmail.
- External HTTP calls are oracles passed in as functions; a response is
  either ok with a payload or err with an HTTP status code.
- The run of searchRepositoriesWithStats is modelled as a pure function that
  also returns the ordered trace of observable events (state saves, segment
  searches, per-repo commit fetches, state deletion).
-/

/-! ## Integer ranges (day arithmetic used by the date-segment planner) -/

/-- The list s, s+1, ..., s+n-1. -/
def intsFrom (s : Int) : Nat → List Int
  | 0 => []
  | n+1 => s :: intsFrom (s+1) n

/-- The inclusive integer range s..e (empty when e < s). -/
def intsFromTo (s e : Int) : List Int := intsFrom s (e + 1 - s).toNat

lemma intsFrom_append (a b : Nat) : ∀ s : Int,
    intsFrom s (a + b) = intsFrom s a ++ intsFrom (s + a) b := by
  induction a with
  | zero => intro s; simp [intsFrom]
  | succ n ih =>
    intro s
    have h1 : n + 1 + b = (n + b) + 1 := by omega
    rw [h1]
    show s :: intsFrom (s+1) (n + b) = (s :: intsFrom (s+1) n) ++ _
    rw [ih (s+1), List.cons_append]
    have h2 : s + 1 + (n : Int) = s + ((n : Nat) + 1 : Nat) := by push_cast; ring
    rw [h2]

lemma mem_intsFrom (n : Nat) : ∀ s x : Int, x ∈ intsFrom s n ↔ s ≤ x ∧ x < s + n := by
  induction n with
  | zero =>
    intro s x
    simp only [intsFrom, List.not_mem_nil, false_iff]
    omega
  | succ k ih =>
    intro s x
    simp only [intsFrom, List.mem_cons, ih (s+1)]
    omega

lemma nodup_intsFrom (n : Nat) : ∀ s : Int, (intsFrom s n).Nodup := by
  induction n with
  | zero => intro s; simp [intsFrom]
  | succ k ih =>
    intro s
    simp only [intsFrom, List.nodup_cons, ih (s+1), and_true, mem_intsFrom]
    omega

lemma intsFromTo_nil (s e : Int) (h : e < s) : intsFromTo s e = [] := by
  unfold intsFromTo
  have hz : (e + 1 - s).toNat = 0 := by omega
  rw [hz]
  rfl

lemma mem_intsFromTo (s e x : Int) : x ∈ intsFromTo s e ↔ s ≤ x ∧ x ≤ e := by
  unfold intsFromTo
  rw [mem_intsFrom]
  omega

lemma nodup_intsFromTo (s e : Int) : (intsFromTo s e).Nodup := nodup_intsFrom _ _

lemma intsFromTo_split (s m e : Int) (h1 : s ≤ m + 1) (h2 : m ≤ e) :
    intsFromTo s e = intsFromTo s m ++ intsFromTo (m+1) e := by
  unfold intsFromTo
  have ha : (e + 1 - s).toNat = (m + 1 - s).toNat + (e + 1 - (m + 1)).toNat := by omega
  rw [ha, intsFrom_append]
  have hb : s + ((m + 1 - s).toNat : Int) = m + 1 := by omega
  rw [hb]

/-! ## The Bounded Query Planner: generateDateSegments (scrape.js lines 334-356)

JS source:
    function generateDateSegments(startDate, endDate, segmentDays = 30) {
      const segments = [];
      const current = new Date(startDate);
      const end = new Date(endDate);
      while (current <= end) {
        const segmentEnd = new Date(current);
        segmentEnd.setDate(segmentEnd.getDate() + segmentDays - 1);
        if (segmentEnd > end) segmentEnd.setTime(end.getTime());
        segments.push({ start: ..., end: ... });
        current.setDate(current.getDate() + segmentDays);
      }
      return segments;
    }

The loop advances by segmentDays each iteration; for segmentDays = 0 the JS
loop would not terminate (never called that way: call sites use 30 or 7).
The fuel (endDate + 1 - startDate).toNat over-approximates the number of
iterations whenever segmentDays >= 1. -/

def genSegsAux (e : Int) (d : Nat) : Nat → Int → List (Int × Int)
  | 0, _ => []
  | fuel+1, cur =>
    if cur ≤ e then (cur, min (cur + d - 1) e) :: genSegsAux e d fuel (cur + d)
    else []

def generateDateSegments (startDate endDate : Int) (segmentDays : Nat) : List (Int × Int) :=
  genSegsAux endDate segmentDays (endDate + 1 - startDate).toNat startDate

/-- Union of the day ranges covered by a list of segments, in order. -/
def segsUnion : List (Int × Int) → List Int
  | [] => []
  | p :: l => intsFromTo p.1 p.2 ++ segsUnion l

lemma segsUnion_append (a b : List (Int × Int)) :
    segsUnion (a ++ b) = segsUnion a ++ segsUnion b := by
  induction a with
  | nil => simp [segsUnion]
  | cons p l ih => simp [segsUnion, ih]

lemma genSegsAux_nil_of_lt (e : Int) (d : Nat) (f : Nat) (cur : Int) (h : e < cur) :
    genSegsAux e d f cur = [] := by
  cases f with
  | zero => rfl
  | succ f => simp [genSegsAux]; omega

lemma genSegsAux_union (e : Int) (d : Nat) (hd : 1 ≤ d) :
    ∀ (fuel : Nat) (cur : Int), (e + 1 - cur).toNat ≤ fuel →
      segsUnion (genSegsAux e d fuel cur) = intsFromTo cur e := by
  intro fuel
  induction fuel with
  | zero =>
    intro cur h
    have hlt : e < cur := by omega
    rw [genSegsAux_nil_of_lt e d 0 cur hlt, intsFromTo_nil cur e hlt]
    rfl
  | succ f ih =>
    intro cur h
    by_cases hc : cur ≤ e
    · rw [genSegsAux, if_pos hc]
      show intsFromTo cur (min (cur + d - 1) e) ++ segsUnion (genSegsAux e d f (cur + d)) = _
      rw [ih (cur + d) (by omega)]
      by_cases hsplit : cur + (d:Int) - 1 ≤ e
      · have hmin : min (cur + (d:Int) - 1) e = cur + (d:Int) - 1 := min_eq_left hsplit
        rw [hmin]
        have hstep : intsFromTo cur e =
            intsFromTo cur (cur + (d:Int) - 1) ++ intsFromTo (cur + (d:Int) - 1 + 1) e :=
          intsFromTo_split _ _ _ (by omega) (by omega)
        have harg : cur + (d:Int) - 1 + 1 = cur + (d:Int) := by ring
        rw [harg] at hstep
        exact hstep.symm
      · have hmin : min (cur + (d:Int) - 1) e = e := min_eq_right (by omega)
        rw [hmin, intsFromTo_nil (cur + d) e (by omega), List.append_nil]
    · rw [genSegsAux, if_neg hc, intsFromTo_nil cur e (by omega)]
      rfl

lemma genSegsAux_start_le (e : Int) (d : Nat) :
    ∀ (fuel : Nat) (cur : Int), ∀ p ∈ genSegsAux e d fuel cur,
      cur ≤ p.1 ∧ p.1 ≤ e ∧ p.2 ≤ e := by
  intro fuel
  induction fuel with
  | zero => intro cur p hp; simp [genSegsAux] at hp
  | succ f ih =>
    intro cur p hp
    by_cases hc : cur ≤ e
    · rw [genSegsAux, if_pos hc] at hp
      rcases List.mem_cons.mp hp with h | h
      · subst h
        refine ⟨le_refl _, hc, ?_⟩
        exact min_le_right _ _
      · have := ih (cur + d) p h
        exact ⟨by omega, this.2.1, this.2.2⟩
    · rw [genSegsAux, if_neg hc] at hp
      simp at hp

lemma genSegsAux_valid (e : Int) (d : Nat) (hd : 1 ≤ d) :
    ∀ (fuel : Nat) (cur : Int), ∀ p ∈ genSegsAux e d fuel cur, p.1 ≤ p.2 := by
  intro fuel
  induction fuel with
  | zero => intro cur p hp; simp [genSegsAux] at hp
  | succ f ih =>
    intro cur p hp
    by_cases hc : cur ≤ e
    · rw [genSegsAux, if_pos hc] at hp
      rcases List.mem_cons.mp hp with h | h
      · subst h
        exact le_min (by omega) hc
      · exact ih (cur + d) p h
    · rw [genSegsAux, if_neg hc] at hp
      simp at hp

lemma genSegsAux_head (e : Int) (d : Nat) (f : Nat) (cur : Int) (hc : cur ≤ e)
    (hf : (e + 1 - cur).toNat ≤ f) :
    (genSegsAux e d f cur).head? = some (cur, min (cur + d - 1) e) := by
  cases f with
  | zero => exfalso; omega
  | succ f => rw [genSegsAux, if_pos hc]; rfl

lemma genSegsAux_chain (e : Int) (d : Nat) (hd : 1 ≤ d) :
    ∀ (fuel : Nat) (cur : Int), (e + 1 - cur).toNat ≤ fuel →
      List.Chain' (fun a b : Int × Int => a.2 + 1 = b.1) (genSegsAux e d fuel cur) := by
  intro fuel
  induction fuel with
  | zero => intro cur h; rw [genSegsAux]; exact List.chain'_nil
  | succ f ih =>
    intro cur h
    by_cases hc : cur ≤ e
    · rw [genSegsAux, if_pos hc]
      rw [List.chain'_cons']
      constructor
      · intro y hy
        by_cases hnext : cur + (d:Int) ≤ e
        · rw [genSegsAux_head e d f (cur + d) hnext (by omega)] at hy
          simp at hy
          subst hy
          show min (cur + (d:Int) - 1) e + 1 = cur + (d:Int)
          rw [min_eq_left (by omega)]
          ring
        · rw [genSegsAux_nil_of_lt e d f (cur + d) (by omega)] at hy
          simp at hy
      · exact ih (cur + d) (by omega)
    · rw [genSegsAux, if_neg hc]
      exact List.chain'_nil

lemma genSegsAux_pairwise (e : Int) (d : Nat) :
    ∀ (fuel : Nat) (cur : Int),
      List.Pairwise (fun a b : Int × Int => a.2 < b.1) (genSegsAux e d fuel cur) := by
  intro fuel
  induction fuel with
  | zero => intro cur; rw [genSegsAux]; exact List.Pairwise.nil
  | succ f ih =>
    intro cur
    by_cases hc : cur ≤ e
    · rw [genSegsAux, if_pos hc]
      refine List.Pairwise.cons ?_ (ih (cur + d))
      intro p hp
      have hs := (genSegsAux_start_le e d f (cur + d) p hp).1
      have : min (cur + (d:Int) - 1) e ≤ cur + (d:Int) - 1 := min_le_left _ _
      show min (cur + (d:Int) - 1) e < p.1
      omega
    · rw [genSegsAux, if_neg hc]
      exact List.Pairwise.nil

/-- C6: for every start date, end date and positive segment length, the
segments produced by generateDateSegments exactly cover the input day range
in left-to-right order (consecutive segments are contiguous: next start =
previous end + 1), are pairwise disjoint, every segment is nonempty and lies
inside the input range, and replacing any segment by its own subdivision (with
any positive segment length) again covers the input range exactly. -/
theorem generateDateSegments_partition (s e : Int) (d : Nat) (hd : 1 ≤ d) :
    segsUnion (generateDateSegments s e d) = intsFromTo s e
    ∧ (∀ p ∈ generateDateSegments s e d, p.1 ≤ p.2 ∧ s ≤ p.1 ∧ p.2 ≤ e)
    ∧ List.Chain' (fun a b : Int × Int => a.2 + 1 = b.1) (generateDateSegments s e d)
    ∧ List.Pairwise (fun a b : Int × Int => a.2 < b.1) (generateDateSegments s e d)
    ∧ (∀ pre p post (d2 : Nat), 1 ≤ d2 →
        generateDateSegments s e d = pre ++ p :: post →
        segsUnion (pre ++ generateDateSegments p.1 p.2 d2 ++ post) = intsFromTo s e) := by
  refine ⟨genSegsAux_union e d hd _ s (le_refl _), ?_, ?_, ?_, ?_⟩
  · intro p hp
    exact ⟨genSegsAux_valid e d hd _ s p hp, (genSegsAux_start_le e d _ s p hp).1,
      (genSegsAux_start_le e d _ s p hp).2.2⟩
  · exact genSegsAux_chain e d hd _ s (le_refl _)
  · exact genSegsAux_pairwise e d _ s
  · intro pre p post d2 hd2 heq
    have hmain : segsUnion (generateDateSegments s e d) = intsFromTo s e :=
      genSegsAux_union e d hd _ s (le_refl _)
    rw [heq] at hmain
    have hsub : segsUnion (generateDateSegments p.1 p.2 d2) = intsFromTo p.1 p.2 :=
      genSegsAux_union p.2 d2 hd2 _ p.1 (le_refl _)
    simp only [segsUnion_append, segsUnion, List.append_assoc] at hmain
    simp only [segsUnion_append, segsUnion, List.append_assoc, hsub]
    exact hmain

/-- Witness for C6 at concrete inputs: a 66-day range split into 30-day
segments is exactly covered. -/
theorem generateDateSegments_partition_witness :
    segsUnion (generateDateSegments 0 65 30) = intsFromTo 0 65 :=
  (generateDateSegments_partition 0 65 30 (by decide)).1

/-! ## The Dedup Store: emails table, saveEmail, isRepoProcessed

scrape.js lines 104-142 create the emails table with `email TEXT UNIQUE`;
saveEmail (lines 249-273) uses INSERT OR IGNORE so only the first row per
email value is ever stored.  The table is modelled as a list of rows in
insertion order. -/

/-- JS String.prototype.toLowerCase at character granularity. -/
def lowerChars (s : String) : List Char := s.data.map Char.toLower

/-- sub is a prefix of the first list (character-wise). -/
def startsWithSeq : List Char → List Char → Bool
  | _, [] => true
  | [], _ :: _ => false
  | a :: as, b :: bs => (a == b) && startsWithSeq as bs

/-- JS String.prototype.includes: sub occurs contiguously in the list. -/
def containsSeq (sub : List Char) : List Char → Bool
  | [] => startsWithSeq [] sub
  | a :: as => startsWithSeq (a :: as) sub || containsSeq sub as

/-- scrape.js line 251: an email is flagged ignore when its lowercasing
contains "noreply" or does not contain "@". -/
def shouldIgnore (email : String) : Bool :=
  containsSeq "noreply".data (lowerChars email) || !(containsSeq "@".data (lowerChars email))

structure EmailRow where
  email : String
  repo_name : String
  keyword : String
  ignore : Bool
  full_name : Option String
  github_stars : Option Nat
  commits : Option Nat
deriving Repr, DecidableEq

def emailsOf (db : List EmailRow) : List String := db.map (fun r => r.email)

/-- scrape.js lines 249-273: INSERT OR IGNORE INTO emails (email, repo_name,
keyword, ignore, full_name, github_stars, commits); the UNIQUE constraint on
email makes the insert a no-op when the email is already present. -/
def saveEmail (db : List EmailRow) (email repoName keyword : String)
    (fullName : Option String) (githubStars commits : Option Nat) : List EmailRow :=
  if db.any (fun r => r.email == email) then db
  else db ++ [⟨email, repoName, keyword, shouldIgnore email, fullName, githubStars, commits⟩]

/-- scrape.js lines 322-331: SELECT COUNT(*) FROM emails WHERE repo_name = ?,
returning count > 0. -/
def isRepoProcessed (db : List EmailRow) (repoName : String) : Bool :=
  db.any (fun r => r.repo_name == repoName)

lemma anyEmail_iff (db : List EmailRow) (e : String) :
    db.any (fun r => r.email == e) = true ↔ e ∈ emailsOf db := by
  simp only [List.any_eq_true, beq_iff_eq, emailsOf, List.mem_map]

lemma saveEmail_append (db : List EmailRow) (e rn kw : String) (fn : Option String)
    (gs cm : Option Nat) : ∃ t, saveEmail db e rn kw fn gs cm = db ++ t := by
  unfold saveEmail
  by_cases h : db.any (fun r => r.email == e) = true
  · exact ⟨[], by rw [if_pos h]; simp⟩
  · exact ⟨_, by rw [if_neg h]⟩

lemma saveEmail_mem_email (db : List EmailRow) (e rn kw : String) (fn : Option String)
    (gs cm : Option Nat) : e ∈ emailsOf (saveEmail db e rn kw fn gs cm) := by
  unfold saveEmail
  by_cases h : db.any (fun r => r.email == e) = true
  · rw [if_pos h]; exact (anyEmail_iff db e).mp h
  · rw [if_neg h]; simp [emailsOf]

lemma saveEmail_of_mem (db : List EmailRow) (e rn kw : String) (fn : Option String)
    (gs cm : Option Nat) (h : e ∈ emailsOf db) : saveEmail db e rn kw fn gs cm = db := by
  unfold saveEmail
  rw [if_pos ((anyEmail_iff db e).mpr h)]

lemma emailsOf_append (a b : List EmailRow) : emailsOf (a ++ b) = emailsOf a ++ emailsOf b := by
  simp [emailsOf]

lemma saveEmail_nodup (db : List EmailRow) (e rn kw : String) (fn : Option String)
    (gs cm : Option Nat) (h : (emailsOf db).Nodup) :
    (emailsOf (saveEmail db e rn kw fn gs cm)).Nodup := by
  unfold saveEmail
  by_cases hp : db.any (fun r => r.email == e) = true
  · rw [if_pos hp]; exact h
  · rw [if_neg hp, emailsOf_append]
    have hnm : e ∉ emailsOf db := fun hc => hp ((anyEmail_iff db e).mpr hc)
    rw [List.nodup_append]
    refine ⟨h, List.nodup_singleton _, ?_⟩
    intro x hx hx1
    have : x = e := by simpa [emailsOf] using hx1
    exact hnm (this ▸ hx)

/-- One recorded call of saveEmail (its argument tuple). -/
structure SaveCall where
  email : String
  repoName : String
  keyword : String
  fullName : Option String
  githubStars : Option Nat
  commits : Option Nat
deriving Repr, DecidableEq

def applyCalls (db : List EmailRow) : List SaveCall → List EmailRow
  | [] => db
  | c :: cs =>
    applyCalls (saveEmail db c.email c.repoName c.keyword c.fullName c.githubStars c.commits) cs

lemma startsWithSeq_iff : ∀ (sub l : List Char), startsWithSeq l sub = true ↔ ∃ t, l = sub ++ t := by
  intro sub
  induction sub with
  | nil =>
    intro l
    simp only [startsWithSeq, List.nil_append, true_iff]
    exact ⟨l, rfl⟩
  | cons b bs ih =>
    intro l
    cases l with
    | nil =>
      constructor
      · intro h
        simp [startsWithSeq] at h
      · rintro ⟨t, h⟩
        exact absurd h.symm (List.cons_ne_nil b (bs ++ t))
    | cons a as =>
      simp only [startsWithSeq, Bool.and_eq_true, beq_iff_eq, ih as]
      constructor
      · rintro ⟨rfl, t, rfl⟩
        exact ⟨t, rfl⟩
      · rintro ⟨t, h⟩
        rw [List.cons_append] at h
        injection h with h1 h2
        exact ⟨h1, t, h2⟩

lemma containsSeq_iff (sub : List Char) : ∀ l, containsSeq sub l = true ↔ ∃ a b, l = a ++ sub ++ b := by
  intro l
  induction l with
  | nil =>
    simp only [containsSeq, startsWithSeq_iff]
    constructor
    · rintro ⟨t, h⟩
      exact ⟨[], t, by simpa using h⟩
    · rintro ⟨a, b, h⟩
      rcases List.append_eq_nil.mp h.symm with ⟨h1, h2⟩
      rcases List.append_eq_nil.mp h1 with ⟨h3, h4⟩
      exact ⟨b, by rw [h4]; exact h2.symm ▸ rfl⟩
  | cons x xs ih =>
    simp only [containsSeq, Bool.or_eq_true, startsWithSeq_iff, ih]
    constructor
    · rintro (⟨t, h⟩ | ⟨a, b, h⟩)
      · exact ⟨[], t, by simpa using h⟩
      · exact ⟨x :: a, b, by rw [h]; simp⟩
    · rintro ⟨a, b, h⟩
      cases a with
      | nil =>
        left
        exact ⟨b, by simpa using h⟩
      | cons y a1 =>
        right
        rw [List.cons_append, List.cons_append] at h
        injection h with h1 h2
        exact ⟨a1, b, h2⟩

/-- C9 counterexample: the string "@" is not flagged by the code (it contains
the character "@"), yet it contains no non-actionable substring and lacks any
canonical local@domain decomposition with nonempty local part and domain, so
the claimed characterization ("ignored exactly when ... lacks the canonical
local@domain shape") is false at "@". -/
theorem ignoredFlag_shape_cex :
    shouldIgnore "@" = false
    ∧ containsSeq "noreply".data (lowerChars "@") = false
    ∧ ¬ ∃ l d : List Char, l ≠ [] ∧ d ≠ [] ∧ "@".data = l ++ "@".data ++ d := by
  refine ⟨by decide, by decide, ?_⟩
  rintro ⟨l, d, hl, hd, h⟩
  have hlen := congrArg List.length h
  simp only [List.length_append] at hlen
  have hl1 : 0 < l.length := List.length_pos.mpr hl
  have hd1 : 0 < d.length := List.length_pos.mpr hd
  have : ("@".data).length = 1 := by decide
  omega

/-- C9 amended: the ignore flag stored with a row is a pure function of the
identity string alone — whatever sequence of saveEmail calls produced the
store, every stored row carries ignore = shouldIgnore(email) — and
shouldIgnore(e) is true exactly when the lowercased string contains
"noreply" or the lowercased string does not contain the character "@"
anywhere (the code checks only for presence of "@", not for a full
local@domain shape). -/
theorem ignoredFlag_amended :
    (∀ db0 : List EmailRow, (∀ r ∈ db0, r.ignore = shouldIgnore r.email) →
      ∀ cs : List SaveCall, ∀ r ∈ applyCalls db0 cs, r.ignore = shouldIgnore r.email)
    ∧ (∀ e : String, shouldIgnore e = true ↔
        (∃ a b : List Char, lowerChars e = a ++ "noreply".data ++ b)
        ∨ ¬ ∃ a b : List Char, lowerChars e = a ++ "@".data ++ b) := by
  constructor
  · intro db0 h0 cs
    induction cs generalizing db0 with
    | nil => exact h0
    | cons c cs ih =>
      intro r hr
      refine ih (saveEmail db0 c.email c.repoName c.keyword c.fullName c.githubStars c.commits)
        ?_ r hr
      intro r2 hr2
      unfold saveEmail at hr2
      by_cases hp : db0.any (fun q => q.email == c.email) = true
      · rw [if_pos hp] at hr2
        exact h0 r2 hr2
      · rw [if_neg hp] at hr2
        rcases List.mem_append.mp hr2 with h | h
        · exact h0 r2 h
        · simp only [List.mem_singleton] at h
          subst h
          rfl
  · intro e
    have h1 := containsSeq_iff "noreply".data (lowerChars e)
    have h2 := containsSeq_iff "@".data (lowerChars e)
    unfold shouldIgnore
    rw [Bool.or_eq_true, Bool.not_eq_true', Bool.eq_false_iff, h1, ne_eq, h2]

/-- Witness for C9 amended: a store built by two concrete saveEmail calls
stores ignore = shouldIgnore(email) on its rows. -/
theorem ignoredFlag_amended_witness :
    (⟨"noreply@x.com", "o/r1", "k", true, none, none, none⟩ : EmailRow).ignore
      = shouldIgnore "noreply@x.com" :=
  ignoredFlag_amended.1 [] (by simp)
    [⟨"a@b.com", "o/r1", "k", none, none, none⟩,
     ⟨"noreply@x.com", "o/r1", "k", none, none, none⟩]
    ⟨"noreply@x.com", "o/r1", "k", true, none, none, none⟩ (by decide)

/-! ## The Entity Processor: commit parsing and per-repo email saving
(scrape.js lines 480-581, processBatchOfRepos) -/

structure CommitAuthor where
  email : String
  name : Option String
  date : Int
deriving Repr, DecidableEq

/-- One element of the commits JSON array; author is none when the chain
commit.commit.author.email is absent (scrape.js line 520). -/
structure Commit where
  author : Option CommitAuthor
deriving Repr, DecidableEq

structure ContribStats where
  count : Nat
  fullName : String
  lastCommitDate : Int
deriving Repr, DecidableEq

/-- First pass over commits (scrape.js lines 516-539): count commits per
contributor in insertion order, keeping the first seen name and the latest
commit date. -/
def addCommit (m : List (String × ContribStats)) (c : Commit) : List (String × ContribStats) :=
  match c.author with
  | none => m
  | some a =>
    if m.any (fun p => p.1 == a.email) then
      m.map (fun p =>
        if p.1 == a.email then
          (p.1, { count := p.2.count + 1, fullName := p.2.fullName,
                  lastCommitDate := if p.2.lastCommitDate < a.date then a.date
                                    else p.2.lastCommitDate })
        else p)
    else m ++ [(a.email, { count := 1, fullName := a.name.getD a.email, lastCommitDate := a.date })]

def repoContributors (commits : List Commit) : List (String × ContribStats) :=
  commits.foldl addCommit []

structure Repo where
  full_name : String
  stargazers_count : Nat
deriving Repr, DecidableEq

/-- Second pass (scrape.js lines 541-564): for each contributor newly seen in
this run (contributorStats gate), save the email row immediately.  The pair
carries (emails table rows, keys of the in-run contributorStats map). -/
def processContributor (keyword repoName : String) (stars : Nat)
    (p : List EmailRow × List String) (entry : String × ContribStats) :
    List EmailRow × List String :=
  if p.2.any (fun k => k == entry.1) then p
  else (saveEmail p.1 entry.1 repoName keyword (some entry.2.fullName) (some stars)
          (some entry.2.count),
        p.2 ++ [entry.1])

def processRepoCommits (keyword : String) (repo : Repo) (commits : List Commit)
    (p : List EmailRow × List String) : List EmailRow × List String :=
  (repoContributors commits).foldl
    (processContributor keyword repo.full_name repo.stargazers_count) p

lemma anyKey_iff (l : List String) (x : String) :
    l.any (fun k => k == x) = true ↔ x ∈ l := by
  simp [List.any_eq_true]

lemma processContributor_db_append (kw rn : String) (stars : Nat)
    (p : List EmailRow × List String) (en : String × ContribStats) :
    ∃ t, (processContributor kw rn stars p en).1 = p.1 ++ t := by
  unfold processContributor
  by_cases hg : p.2.any (fun k => k == en.1) = true
  · exact ⟨[], by rw [if_pos hg]; simp⟩
  · rw [if_neg hg]
    exact saveEmail_append p.1 en.1 rn kw _ _ _

lemma foldProc_db_append (kw rn : String) (stars : Nat) :
    ∀ (entries : List (String × ContribStats)) (p : List EmailRow × List String),
      ∃ t, (entries.foldl (processContributor kw rn stars) p).1 = p.1 ++ t := by
  intro entries
  induction entries with
  | nil => intro p; exact ⟨[], by simp⟩
  | cons en rest ih =>
    intro p
    rw [List.foldl_cons]
    obtain ⟨t1, ht1⟩ := processContributor_db_append kw rn stars p en
    obtain ⟨t2, ht2⟩ := ih (processContributor kw rn stars p en)
    exact ⟨t1 ++ t2, by rw [ht2, ht1, List.append_assoc]⟩

lemma mem_emailsOf_mono (db t : List EmailRow) (x : String) (h : x ∈ emailsOf db) :
    x ∈ emailsOf (db ++ t) := by
  rw [emailsOf_append]
  exact List.mem_append_left _ h

lemma foldProc_invariant (kw rn : String) (stars : Nat) :
    ∀ (entries : List (String × ContribStats)) (p : List EmailRow × List String),
      (∀ k ∈ p.2, k ∈ emailsOf p.1) →
      (∀ k ∈ (entries.foldl (processContributor kw rn stars) p).2,
          k ∈ emailsOf (entries.foldl (processContributor kw rn stars) p).1)
      ∧ ∀ en ∈ entries, en.1 ∈ emailsOf (entries.foldl (processContributor kw rn stars) p).1 := by
  intro entries
  induction entries with
  | nil =>
    intro p hp
    exact ⟨hp, by intro en hen; simp at hen⟩
  | cons en rest ih =>
    intro p hp
    rw [List.foldl_cons]
    have hinv1 : ∀ k ∈ (processContributor kw rn stars p en).2,
        k ∈ emailsOf (processContributor kw rn stars p en).1 := by
      unfold processContributor
      by_cases hg : p.2.any (fun k => k == en.1) = true
      · rw [if_pos hg]; exact hp
      · rw [if_neg hg]
        intro k hk
        rcases List.mem_append.mp hk with h | h
        · obtain ⟨t, ht⟩ := saveEmail_append p.1 en.1 rn kw (some en.2.fullName) (some stars)
            (some en.2.count)
          rw [ht]
          exact mem_emailsOf_mono _ _ _ (hp k h)
        · simp only [List.mem_singleton] at h
          subst h
          exact saveEmail_mem_email p.1 en.1 rn kw _ _ _
    have hbase : en.1 ∈ emailsOf (processContributor kw rn stars p en).1 := by
      unfold processContributor
      by_cases hg : p.2.any (fun k => k == en.1) = true
      · rw [if_pos hg]
        exact hp en.1 ((anyKey_iff p.2 en.1).mp hg)
      · rw [if_neg hg]
        exact saveEmail_mem_email p.1 en.1 rn kw _ _ _
    have hrest := ih (processContributor kw rn stars p en) hinv1
    refine ⟨hrest.1, ?_⟩
    intro en2 hen2
    rcases List.mem_cons.mp hen2 with h | h
    · rw [h]
      obtain ⟨t, ht⟩ := foldProc_db_append kw rn stars rest (processContributor kw rn stars p en)
      rw [ht]
      exact mem_emailsOf_mono _ _ _ hbase
    · exact hrest.2 en2 h

lemma foldProc_db_eq (kw rn : String) (stars : Nat) :
    ∀ (entries : List (String × ContribStats)) (p : List EmailRow × List String),
      (∀ en ∈ entries, en.1 ∈ emailsOf p.1) →
      (entries.foldl (processContributor kw rn stars) p).1 = p.1 := by
  intro entries
  induction entries with
  | nil => intro p _; rfl
  | cons en rest ih =>
    intro p hp
    rw [List.foldl_cons]
    have hstep : (processContributor kw rn stars p en).1 = p.1 := by
      unfold processContributor
      by_cases hg : p.2.any (fun k => k == en.1) = true
      · rw [if_pos hg]
      · rw [if_neg hg]
        exact saveEmail_of_mem p.1 en.1 rn kw _ _ _ (hp en (List.mem_cons_self en rest))
    have hrest : ∀ en2 ∈ rest, en2.1 ∈ emailsOf (processContributor kw rn stars p en).1 := by
      intro en2 hen2
      rw [hstep]
      exact hp en2 (List.mem_cons_of_mem en hen2)
    rw [ih (processContributor kw rn stars p en) hrest, hstep]

lemma foldProc_db_eq_known (kw rn : String) (stars : Nat) :
    ∀ (entries : List (String × ContribStats)) (p : List EmailRow × List String),
      (∀ en ∈ entries, en.1 ∈ p.2 ∨ en.1 ∈ emailsOf p.1) →
      (entries.foldl (processContributor kw rn stars) p).1 = p.1 := by
  intro entries
  induction entries with
  | nil => intro p _; rfl
  | cons en rest ih =>
    intro p hp
    rw [List.foldl_cons]
    by_cases hg : p.2.any (fun k => k == en.1) = true
    · have hstep : processContributor kw rn stars p en = p := by
        unfold processContributor
        rw [if_pos hg]
      rw [hstep]
      exact ih p (fun en2 hen2 => hp en2 (List.mem_cons_of_mem en hen2))
    · have hmem : en.1 ∈ emailsOf p.1 := by
        rcases hp en (List.mem_cons_self en rest) with h | h
        · exact absurd ((anyKey_iff p.2 en.1).mpr h) hg
        · exact h
      have hstep : processContributor kw rn stars p en = (p.1, p.2 ++ [en.1]) := by
        unfold processContributor
        rw [if_neg hg, saveEmail_of_mem p.1 en.1 rn kw _ _ _ hmem]
      rw [hstep]
      refine ih (p.1, p.2 ++ [en.1]) ?_
      intro en2 hen2
      rcases hp en2 (List.mem_cons_of_mem en hen2) with h | h
      · exact Or.inl (List.mem_append_left _ h)
      · exact Or.inr h

lemma foldProc_nodup (kw rn : String) (stars : Nat) :
    ∀ (entries : List (String × ContribStats)) (p : List EmailRow × List String),
      (emailsOf p.1).Nodup →
      (emailsOf (entries.foldl (processContributor kw rn stars) p).1).Nodup := by
  intro entries
  induction entries with
  | nil => intro p h; exact h
  | cons en rest ih =>
    intro p hp
    rw [List.foldl_cons]
    refine ih _ ?_
    unfold processContributor
    by_cases hg : p.2.any (fun k => k == en.1) = true
    · rw [if_pos hg]
      exact hp
    · rw [if_neg hg]
      exact saveEmail_nodup p.1 en.1 rn kw _ _ _ hp

lemma isRepoProcessed_mono (db t : List EmailRow) (n : String)
    (h : isRepoProcessed db n = true) : isRepoProcessed (db ++ t) n = true := by
  unfold isRepoProcessed at *
  rw [List.any_append, h]
  rfl

lemma foldProc_marks (kw rn : String) (stars : Nat) :
    ∀ (entries : List (String × ContribStats)) (p : List EmailRow × List String),
      (∃ en ∈ entries, en.1 ∉ p.2 ∧ en.1 ∉ emailsOf p.1) →
      isRepoProcessed (entries.foldl (processContributor kw rn stars) p).1 rn = true := by
  intro entries
  induction entries with
  | nil =>
    rintro p ⟨en, hen, _⟩
    simp at hen
  | cons e rest ih =>
    rintro p ⟨en, hen, h1, h2⟩
    rw [List.foldl_cons]
    by_cases hhead : e.1 ∉ p.2 ∧ e.1 ∉ emailsOf p.1
    · have hg : ¬ p.2.any (fun k => k == e.1) = true := by
        rw [anyKey_iff]
        exact hhead.1
      have hsv : ¬ p.1.any (fun r => r.email == e.1) = true := by
        rw [anyEmail_iff]
        exact hhead.2
      have hmarked : isRepoProcessed (processContributor kw rn stars p e).1 rn = true := by
        unfold processContributor
        rw [if_neg hg]
        unfold saveEmail
        rw [if_neg hsv]
        unfold isRepoProcessed
        rw [List.any_append]
        simp
      obtain ⟨t, ht⟩ := foldProc_db_append kw rn stars rest (processContributor kw rn stars p e)
      rw [ht]
      exact isRepoProcessed_mono _ _ _ hmarked
    · rcases List.mem_cons.mp hen with hcase | hcase
      · exfalso
        rw [hcase] at h1 h2
        exact hhead ⟨h1, h2⟩
      · have hne : en.1 ≠ e.1 := by
          intro hq
          exact hhead ⟨hq ▸ h1, hq ▸ h2⟩
        refine ih (processContributor kw rn stars p e) ⟨en, hcase, ?_, ?_⟩
        · unfold processContributor
          by_cases hg : p.2.any (fun k => k == e.1) = true
          · rw [if_pos hg]
            exact h1
          · rw [if_neg hg]
            intro hmem
            rcases List.mem_append.mp hmem with hm | hm
            · exact h1 hm
            · simp at hm
              exact hne hm
        · unfold processContributor
          by_cases hg : p.2.any (fun k => k == e.1) = true
          · rw [if_pos hg]
            exact h2
          · rw [if_neg hg]
            intro hmem
            unfold saveEmail at hmem
            by_cases hs : p.1.any (fun r => r.email == e.1) = true
            · rw [if_pos hs] at hmem
              exact h2 hmem
            · rw [if_neg hs] at hmem
              rw [emailsOf_append] at hmem
              rcases List.mem_append.mp hmem with hm | hm
              · exact h2 hm
              · simp [emailsOf] at hm
                exact hne hm

/-- C8: processing the same entity twice yields the same emails-table state as
processing it once — a second pass over the same commits inserts nothing,
whatever in-run stats map it starts from; distinctness of stored email
identities is preserved; and the table is append-only, so already persisted
rows (including their occurrence counts) are never modified
(first-write-wins).  The hypothesis says every key of the in-run stats map
already has a row, which holds throughout a run because every key is added
together with its saveEmail call. -/
theorem dedupStore_idempotent (kw : String) (repo : Repo) (commits : List Commit)
    (db : List EmailRow) (ks : List String)
    (hks : ∀ k ∈ ks, k ∈ emailsOf db) :
    (∀ ks2 : List String,
        (processRepoCommits kw repo commits
            ((processRepoCommits kw repo commits (db, ks)).1, ks2)).1
          = (processRepoCommits kw repo commits (db, ks)).1)
    ∧ ((emailsOf db).Nodup →
        (emailsOf (processRepoCommits kw repo commits (db, ks)).1).Nodup)
    ∧ (∃ t, (processRepoCommits kw repo commits (db, ks)).1 = db ++ t) := by
  refine ⟨?_, ?_, ?_⟩
  · intro ks2
    have hcov := (foldProc_invariant kw repo.full_name repo.stargazers_count
        (repoContributors commits) (db, ks) hks).2
    exact foldProc_db_eq kw repo.full_name repo.stargazers_count (repoContributors commits)
      ((processRepoCommits kw repo commits (db, ks)).1, ks2) hcov
  · intro hnd
    exact foldProc_nodup kw repo.full_name repo.stargazers_count
      (repoContributors commits) (db, ks) hnd
  · exact foldProc_db_append kw repo.full_name repo.stargazers_count
      (repoContributors commits) (db, ks)

/-- Witness for C8 at a concrete entity: one commit authored by a@b.com,
processed twice starting from the empty store. -/
theorem dedupStore_idempotent_witness :
    (processRepoCommits "k" ⟨"o/r", 3⟩ [⟨some ⟨"a@b.com", some "A", 5⟩⟩]
        ((processRepoCommits "k" ⟨"o/r", 3⟩ [⟨some ⟨"a@b.com", some "A", 5⟩⟩] ([], [])).1, [])).1
      = (processRepoCommits "k" ⟨"o/r", 3⟩ [⟨some ⟨"a@b.com", some "A", 5⟩⟩] ([], [])).1 :=
  (dedupStore_idempotent "k" ⟨"o/r", 3⟩ [⟨some ⟨"a@b.com", some "A", 5⟩⟩] [] [] (by simp)).1 []

/-! ## HTTP oracles and the per-repo processing step -/

/-- Outcome of one fetch: response.ok with the parsed JSON payload, or a
non-success HTTP status code. -/
inductive HttpResult (α : Type)
  | ok (val : α)
  | err (status : Nat)
deriving Repr, DecidableEq

/-- One page of the repository search response: total_count and items. -/
structure SearchPage where
  totalCount : Nat
  items : List Repo
deriving Repr, DecidableEq

/-- In-run state of searchRepositoriesWithStats (scrape.js lines 428-673):
emails table rows, keys of the contributorStats map, the seenRepos set in
insertion order, and the totalReposProcessed counter. -/
structure EngState where
  db : List EmailRow
  statsKeys : List String
  seen : List String
  totalProcessed : Nat
deriving Repr, DecidableEq

/-- Observable events of a run, in order of occurrence. -/
inductive Event
  /-- INSERT OR REPLACE of the fresh-run request_state row (line 462). -/
  | initialStateSave
  /-- saveProcessingState (lines 307-320); never reached on the non-error
  path of the current code. -/
  | procStateSave (segIdx repoIdx total : Nat)
  /-- UPDATE request_state SET current_segment = i+1 (lines 623-628). -/
  | segmentUpdate (newSegment : Nat)
  /-- The page requests for one date window (lines 588, 597, 606). -/
  | searchSegment (seg : Int × Int)
  /-- The per-repo commits fetch (lines 506-507). -/
  | fetchCommits (repo : String)
  /-- DELETE FROM request_state after the segment loop (line 660). -/
  | stateDelete
deriving Repr, DecidableEq

/-- One iteration of the repo loop in processBatchOfRepos (scrape.js lines
483-579): skip duplicates via seenRepos, skip already-processed repos via
isRepoProcessed, otherwise increment totalReposProcessed and fetch commits.
A non-ok commits response hits `continue` (line 511), which bypasses the
MAX_RESULTS check at lines 574-578; an ok response runs the two contributor
passes and then performs that check.  Returns (state, stop flag, events). -/
def processOneRepo (commitsOf : String → HttpResult (List Commit)) (keyword : String)
    (maxResults : Nat) (st : EngState) (repo : Repo) : EngState × Bool × List Event :=
  if st.seen.any (fun k => k == repo.full_name) then (st, false, [])
  else
    let st1 : EngState := { st with seen := st.seen ++ [repo.full_name] }
    if isRepoProcessed st1.db repo.full_name then (st1, false, [])
    else
      let st2 : EngState := { st1 with totalProcessed := st1.totalProcessed + 1 }
      match commitsOf repo.full_name with
      | .err _ => (st2, false, [Event.fetchCommits repo.full_name])
      | .ok commits =>
        let q := processRepoCommits keyword repo commits (st2.db, st2.statsKeys)
        let st3 : EngState := { st2 with db := q.1, statsKeys := q.2 }
        (st3, decide (maxResults ≤ st3.totalProcessed), [Event.fetchCommits repo.full_name])

/-- scrape.js lines 480-581: the whole repo loop of one batch; returning
true from the MAX_RESULTS check aborts the remainder of the batch. -/
def processBatchOfRepos (commitsOf : String → HttpResult (List Commit)) (keyword : String)
    (maxResults : Nat) (st : EngState) : List Repo → EngState × Bool × List Event
  | [] => (st, false, [])
  | r :: rs =>
    let step := processOneRepo commitsOf keyword maxResults st r
    if step.2.1 then (step.1, true, step.2.2)
    else
      let rest := processBatchOfRepos commitsOf keyword maxResults step.1 rs
      (rest.1, rest.2.1, step.2.2 ++ rest.2.2)

/-- C3 counterexample: a repository whose commits fetch succeeds but returns
zero commits triggers no saveEmail call, so afterwards no row is keyed on the
repo and isRepoProcessed still returns false — contradicting the claim that
every entity with a successful secondary fetch is marked processed even when
zero SubRecords were extracted. -/
theorem zeroSubrecords_notMarked_cex :
    (processOneRepo (fun _ => HttpResult.ok []) "k" 100 ⟨[], [], [], 0⟩ ⟨"o/r", 5⟩).1.db = []
    ∧ isRepoProcessed
        (processOneRepo (fun _ => HttpResult.ok []) "k" 100 ⟨[], [], [], 0⟩ ⟨"o/r", 5⟩).1.db
        "o/r" = false := by
  constructor
  · decide
  · decide

/-- C3 amended: when the secondary fetch succeeds, the entity becomes marked
processed exactly when at least one extracted contributor email is new, i.e.
absent from both the in-run stats map and the emails table: a new email
guarantees a row keyed on the entity exists afterwards (sufficiency); when
zero contributors are extracted the store is unchanged; and whenever every
extracted email is already known to the run or to the store, the emails
table is left completely unchanged, so no row keyed on the entity is
written and the skip-on-resume check returns exactly what it returned
before — an entity that was not already marked stays unmarked and is
re-fetched by later runs (the only-when direction, by contraposition). -/
theorem entityMarking_amended :
    (∀ (commitsOf : String → HttpResult (List Commit)) (kw : String) (maxR : Nat)
        (st : EngState) (repo : Repo) (commits : List Commit),
      repo.full_name ∉ st.seen →
      commitsOf repo.full_name = HttpResult.ok commits →
      (∃ en ∈ repoContributors commits, en.1 ∉ st.statsKeys ∧ en.1 ∉ emailsOf st.db) →
      isRepoProcessed (processOneRepo commitsOf kw maxR st repo).1.db repo.full_name = true)
    ∧ (∀ (commitsOf : String → HttpResult (List Commit)) (kw : String) (maxR : Nat)
        (st : EngState) (repo : Repo) (commits : List Commit),
      commitsOf repo.full_name = HttpResult.ok commits →
      repoContributors commits = [] →
      (processOneRepo commitsOf kw maxR st repo).1.db = st.db)
    ∧ (∀ (commitsOf : String → HttpResult (List Commit)) (kw : String) (maxR : Nat)
        (st : EngState) (repo : Repo) (commits : List Commit),
      commitsOf repo.full_name = HttpResult.ok commits →
      (∀ en ∈ repoContributors commits, en.1 ∈ st.statsKeys ∨ en.1 ∈ emailsOf st.db) →
      (processOneRepo commitsOf kw maxR st repo).1.db = st.db
      ∧ isRepoProcessed (processOneRepo commitsOf kw maxR st repo).1.db repo.full_name
          = isRepoProcessed st.db repo.full_name) := by
  refine ⟨?_, ?_, ?_⟩
  · intro commitsOf kw maxR st repo commits hseen hfetch hnew
    unfold processOneRepo
    have hseenb : ¬ st.seen.any (fun k => k == repo.full_name) = true := by
      rw [anyKey_iff]
      exact hseen
    rw [if_neg hseenb]
    by_cases hproc : isRepoProcessed st.db repo.full_name = true
    · rw [if_pos hproc]
      exact hproc
    · rw [if_neg hproc, hfetch]
      exact foldProc_marks kw repo.full_name repo.stargazers_count (repoContributors commits)
        (st.db, st.statsKeys) hnew
  · intro commitsOf kw maxR st repo commits hfetch hz
    unfold processOneRepo
    by_cases hseenb : st.seen.any (fun k => k == repo.full_name) = true
    · rw [if_pos hseenb]
    · rw [if_neg hseenb]
      by_cases hproc : isRepoProcessed st.db repo.full_name = true
      · rw [if_pos hproc]
      · rw [if_neg hproc, hfetch]
        show (processRepoCommits kw repo commits (st.db, st.statsKeys)).1 = st.db
        unfold processRepoCommits
        rw [hz]
        rfl
  · intro commitsOf kw maxR st repo commits hfetch hknown
    have hdb : (processOneRepo commitsOf kw maxR st repo).1.db = st.db := by
      unfold processOneRepo
      by_cases hseenb : st.seen.any (fun k => k == repo.full_name) = true
      · rw [if_pos hseenb]
      · rw [if_neg hseenb]
        by_cases hproc : isRepoProcessed st.db repo.full_name = true
        · rw [if_pos hproc]
        · rw [if_neg hproc, hfetch]
          show (processRepoCommits kw repo commits (st.db, st.statsKeys)).1 = st.db
          exact foldProc_db_eq_known kw repo.full_name repo.stargazers_count
            (repoContributors commits) (st.db, st.statsKeys) hknown
    exact ⟨hdb, by rw [hdb]⟩

/-- Witness for C3 amended: a repo with one commit authored by a new email is
marked processed afterwards. -/
theorem entityMarking_amended_witness :
    isRepoProcessed
      (processOneRepo (fun _ => HttpResult.ok [⟨some ⟨"a@b.com", none, 0⟩⟩]) "k" 100
        ⟨[], [], [], 0⟩ ⟨"o/r", 5⟩).1.db "o/r" = true :=
  entityMarking_amended.1 (fun _ => HttpResult.ok [⟨some ⟨"a@b.com", none, 0⟩⟩]) "k" 100
    ⟨[], [], [], 0⟩ ⟨"o/r", 5⟩ [⟨some ⟨"a@b.com", none, 0⟩⟩]
    (by simp) rfl ⟨("a@b.com", ⟨1, "a@b.com", 0⟩), by decide, by simp, by simp [emailsOf]⟩

/-! ## The Paginated Fetcher: searchRepositoriesInDateRange (scrape.js 358-425) -/

structure SearchResult where
  repos : List Repo
  needsSplit : Bool
  totalCount : Nat
deriving Repr, DecidableEq

/-- The while loop of lines 400-417: pages 2..10 run while the previous page
was full (100 items).  The fuel counts the admissible remaining pages (9 when
entered at page 2; exhaustion corresponds to page 11 > 10, which exits the
loop normally).  A non-ok response throws, caught by the enclosing catch. -/
def fetchLoop (pages : Nat → HttpResult SearchPage) :
    Nat → Nat → List Repo → Option (List Repo)
  | 0, _, acc => some acc
  | fuel+1, p, acc =>
    match pages p with
    | .err _ => none
    | .ok d =>
      if d.items.length == 100 then fetchLoop pages fuel (p+1) (acc ++ d.items)
      else some (acc ++ d.items)

/-- scrape.js lines 358-425: fetch page 1; when total_count > 1000 return
needsSplit with no repos; otherwise page through while full pages arrive
(max page 10); any thrown GitHub API error is caught at line 421 and turned
into { repos: [], needsSplit: false, totalCount: 0 }. -/
def searchRepositoriesInDateRange (pages : Nat → HttpResult SearchPage) : SearchResult :=
  match pages 1 with
  | .err _ => ⟨[], false, 0⟩
  | .ok d1 =>
    if 1000 < d1.totalCount then ⟨[], true, d1.totalCount⟩
    else if d1.items.length == 100 then
      match fetchLoop pages 9 2 d1.items with
      | none => ⟨[], false, 0⟩
      | some repos => ⟨repos, false, d1.totalCount⟩
    else ⟨d1.items, false, d1.totalCount⟩

/-- C5 counterexample: a page-1 failure with status 403, a page-1 failure
with status 500, and a genuinely empty window all produce the identical
caller-visible result { repos: [], needsSplit: false, totalCount: 0 } — the
HTTP status is logged inside the fetcher but is not surfaced to the caller,
which cannot even distinguish a failed window from an empty one. -/
theorem httpStatusNotSurfaced_cex :
    searchRepositoriesInDateRange (fun _ => HttpResult.err 403) = ⟨[], false, 0⟩
    ∧ searchRepositoriesInDateRange (fun _ => HttpResult.err 500) = ⟨[], false, 0⟩
    ∧ searchRepositoriesInDateRange (fun _ => HttpResult.ok ⟨0, []⟩) = ⟨[], false, 0⟩ :=
  ⟨rfl, rfl, rfl⟩

/-- C5 amended: a non-success response at any page reached during a window
fetch aborts the whole window fetch (results of earlier pages included); the
window contributes zero entities for the attempt, and the failure is only
logged inside the fetcher: the caller receives { repos: [], needsSplit:
false, totalCount: 0 } with no status information and, seeing an empty batch
(a no-op for processBatchOfRepos that sets no stop flag), proceeds to the
next window. -/
theorem subRangeFetchFailure_amended :
    (∀ (pages : Nat → HttpResult SearchPage) (s : Nat),
        pages 1 = HttpResult.err s →
        searchRepositoriesInDateRange pages = ⟨[], false, 0⟩)
    ∧ (∀ (pages : Nat → HttpResult SearchPage) (fuel p : Nat) (acc : List Repo) (s : Nat),
        pages p = HttpResult.err s →
        fetchLoop pages (fuel+1) p acc = none)
    ∧ (∀ (pages : Nat → HttpResult SearchPage) (d1 : SearchPage),
        pages 1 = HttpResult.ok d1 →
        ¬ 1000 < d1.totalCount →
        d1.items.length = 100 →
        fetchLoop pages 9 2 d1.items = none →
        searchRepositoriesInDateRange pages = ⟨[], false, 0⟩)
    ∧ (∀ (commitsOf : String → HttpResult (List Commit)) (kw : String) (maxR : Nat)
        (st : EngState), processBatchOfRepos commitsOf kw maxR st [] = (st, false, [])) := by
  refine ⟨?_, ?_, ?_, ?_⟩
  · intro pages s h
    unfold searchRepositoriesInDateRange
    rw [h]
  · intro pages fuel p acc s h
    unfold fetchLoop
    rw [h]
  · intro pages d1 h1 hc hlen hloop
    have hb : (d1.items.length == 100) = true := by simp [hlen]
    unfold searchRepositoriesInDateRange
    rw [h1]
    show (if 1000 < d1.totalCount then (⟨[], true, d1.totalCount⟩ : SearchResult)
          else if d1.items.length == 100 then
            match fetchLoop pages 9 2 d1.items with
            | none => ⟨[], false, 0⟩
            | some repos => ⟨repos, false, d1.totalCount⟩
          else ⟨d1.items, false, d1.totalCount⟩) = ⟨[], false, 0⟩
    rw [if_neg hc, if_pos hb, hloop]
  · intro commitsOf kw maxR st
    rfl

/-- Witness for C5 amended at a concrete failing oracle: a 404 on page 1. -/
theorem subRangeFetchFailure_amended_witness :
    searchRepositoriesInDateRange (fun _ => HttpResult.err 404) = ⟨[], false, 0⟩ :=
  subRangeFetchFailure_amended.1 (fun _ => HttpResult.err 404) 404 rfl

/-! ## The segment loop of searchRepositoriesWithStats (scrape.js 583-673) -/

/-- Oracles for one run: the per-window search pages and the per-repo
commits endpoint. -/
structure Oracles where
  search : (Int × Int) → Nat → HttpResult SearchPage
  commitsOf : String → HttpResult (List Commit)

/-- Common shape of the inner loops: given the events head of this
iteration, the iteration result x and the computed break condition, either
break out (propagating x's state) or continue with k from x's state. -/
def chain (head : List Event) (x : EngState × Bool × List Event) (stop : Bool)
    (k : EngState → EngState × Bool × List Event) : EngState × Bool × List Event :=
  if stop then (x.1, true, head ++ x.2.2)
  else ((k x.1).1, (k x.1).2.1, (head ++ x.2.2) ++ (k x.1).2.2)

/-- The weekly loop (lines 604-610): process each 7-day window in turn; a
true flag from processBatchOfRepos breaks the loop (line 608). -/
def weekLoop (o : Oracles) (kw : String) (maxR : Nat) :
    EngState → List (Int × Int) → EngState × Bool × List Event
  | st, [] => (st, false, [])
  | st, w :: ws =>
    chain [Event.searchSegment w]
      (processBatchOfRepos o.commitsOf kw maxR st
        (searchRepositoriesInDateRange (o.search w)).repos)
      (processBatchOfRepos o.commitsOf kw maxR st
        (searchRepositoriesInDateRange (o.search w)).repos).2.1
      (fun s1 => weekLoop o kw maxR s1 ws)

/-- The sub-segment loop (lines 595-617): each 30-day sub-window either
recurses into 7-day windows (when its probe is still over the ceiling) or
processes its batch directly; the loop breaks on a batch stop (line 613/608)
and additionally at line 616 once totalReposProcessed >= MAX_RESULTS. -/
def subLoop (o : Oracles) (kw : String) (maxR : Nat) :
    EngState → List (Int × Int) → EngState × Bool × List Event
  | st, [] => (st, false, [])
  | st, sub :: subs =>
    if (searchRepositoriesInDateRange (o.search sub)).needsSplit then
      chain [Event.searchSegment sub]
        (weekLoop o kw maxR st (generateDateSegments sub.1 sub.2 7))
        ((weekLoop o kw maxR st (generateDateSegments sub.1 sub.2 7)).2.1
          || decide (maxR ≤
              (weekLoop o kw maxR st (generateDateSegments sub.1 sub.2 7)).1.totalProcessed))
        (fun s1 => subLoop o kw maxR s1 subs)
    else
      chain [Event.searchSegment sub]
        (processBatchOfRepos o.commitsOf kw maxR st
          (searchRepositoriesInDateRange (o.search sub)).repos)
        ((processBatchOfRepos o.commitsOf kw maxR st
            (searchRepositoriesInDateRange (o.search sub)).repos).2.1
          || decide (maxR ≤ (processBatchOfRepos o.commitsOf kw maxR st
              (searchRepositoriesInDateRange (o.search sub)).repos).1.totalProcessed))
        (fun s1 => subLoop o kw maxR s1 subs)

/-- One iteration of the top-level segment loop (lines 584-637).  In the
split branch the progress update (line 624) always follows the sub-loop,
however the inner loops exited; in the unsplit branch a batch stop breaks at
line 620 BEFORE the update.  After the update, line 633 stops the segment
loop once totalReposProcessed >= MAX_RESULTS.  Returns (state, stop the
segment loop?, events). -/
def segmentStep (o : Oracles) (kw : String) (maxR : Nat) (st : EngState) (i : Nat)
    (seg : Int × Int) : EngState × Bool × List Event :=
  if (searchRepositoriesInDateRange (o.search seg)).needsSplit then
    ((subLoop o kw maxR st (generateDateSegments seg.1 seg.2 30)).1,
     decide (maxR ≤ (subLoop o kw maxR st (generateDateSegments seg.1 seg.2 30)).1.totalProcessed),
     (Event.searchSegment seg :: (subLoop o kw maxR st (generateDateSegments seg.1 seg.2 30)).2.2)
       ++ [Event.segmentUpdate (i+1)])
  else
    if (processBatchOfRepos o.commitsOf kw maxR st
          (searchRepositoriesInDateRange (o.search seg)).repos).2.1 then
      ((processBatchOfRepos o.commitsOf kw maxR st
          (searchRepositoriesInDateRange (o.search seg)).repos).1, true,
       Event.searchSegment seg :: (processBatchOfRepos o.commitsOf kw maxR st
          (searchRepositoriesInDateRange (o.search seg)).repos).2.2)
    else
      ((processBatchOfRepos o.commitsOf kw maxR st
          (searchRepositoriesInDateRange (o.search seg)).repos).1,
       decide (maxR ≤ (processBatchOfRepos o.commitsOf kw maxR st
          (searchRepositoriesInDateRange (o.search seg)).repos).1.totalProcessed),
       (Event.searchSegment seg :: (processBatchOfRepos o.commitsOf kw maxR st
          (searchRepositoriesInDateRange (o.search seg)).repos).2.2)
         ++ [Event.segmentUpdate (i+1)])

/-- The top-level segment loop (lines 584-637) from index i; a true flag
from segmentStep ends the loop. -/
def runSegments (o : Oracles) (kw : String) (maxR : Nat) :
    EngState → Nat → List (Int × Int) → EngState × List Event
  | st, _, [] => (st, [])
  | st, i, seg :: rest =>
    if (segmentStep o kw maxR st i seg).2.1 then
      ((segmentStep o kw maxR st i seg).1, (segmentStep o kw maxR st i seg).2.2)
    else
      ((runSegments o kw maxR (segmentStep o kw maxR st i seg).1 (i+1) rest).1,
       (segmentStep o kw maxR st i seg).2.2
         ++ (runSegments o kw maxR (segmentStep o kw maxR st i seg).1 (i+1) rest).2)

/-- A fresh (non-resumed) run of searchRepositoriesWithStats on the
non-error path (lines 428-663): save the initial state row, run the segment
loop from index 0, then DELETE the request_state row.  The planned
dateSegments list is a parameter (the code builds it with
generateDateSegments from 2024-01-01 to "now" with 30-day windows), so runs
over any planned sequence are covered. -/
def searchRepositoriesWithStatsFresh (o : Oracles) (kw : String) (maxR : Nat)
    (dateSegments : List (Int × Int)) (db0 : List EmailRow) : EngState × List Event :=
  ((runSegments o kw maxR ⟨db0, [], [], 0⟩ 0 dateSegments).1,
   (Event.initialStateSave :: (runSegments o kw maxR ⟨db0, [], [], 0⟩ 0 dateSegments).2)
     ++ [Event.stateDelete])

/-- Checkpoint-writing events (request_state INSERTs or UPDATEs). -/
def isSaveEvent : Event → Bool
  | Event.initialStateSave => true
  | Event.procStateSave _ _ _ => true
  | Event.segmentUpdate _ => true
  | _ => false

/-- Entity-processing events (the per-repo commits fetch). -/
def isFetchEvent : Event → Bool
  | Event.fetchCommits _ => true
  | _ => false

/-- Scans a trace: true iff every fetchCommits event is preceded by at least
one checkpoint save occurring after the previous fetchCommits event — the
formal reading of "the checkpoint is saved before processing each entity". -/
def savedBeforeEachFetchAux : Bool → List Event → Bool
  | _, [] => true
  | flag, e :: rest =>
    if isFetchEvent e then flag && savedBeforeEachFetchAux false rest
    else savedBeforeEachFetchAux (flag || isSaveEvent e) rest

def savedBeforeEachFetch (tr : List Event) : Bool := savedBeforeEachFetchAux false tr

lemma fetch_not_save (ev : Event) (h : isFetchEvent ev = true) : isSaveEvent ev = false := by
  cases ev <;> simp [isFetchEvent, isSaveEvent] at *

lemma processOneRepo_events (commitsOf : String → HttpResult (List Commit)) (kw : String)
    (maxR : Nat) (st : EngState) (r : Repo) :
    ∀ ev ∈ (processOneRepo commitsOf kw maxR st r).2.2, isFetchEvent ev = true := by
  intro ev hev
  unfold processOneRepo at hev
  by_cases h1 : st.seen.any (fun k => k == r.full_name) = true
  · rw [if_pos h1] at hev
    simp at hev
  · rw [if_neg h1] at hev
    by_cases h2 : isRepoProcessed st.db r.full_name = true
    · rw [if_pos h2] at hev
      simp at hev
    · rw [if_neg h2] at hev
      cases hcf : commitsOf r.full_name with
      | err s =>
        rw [hcf] at hev
        simp at hev
        rw [hev]
        rfl
      | ok commits =>
        rw [hcf] at hev
        simp at hev
        rw [hev]
        rfl

lemma processBatch_events (commitsOf : String → HttpResult (List Commit)) (kw : String)
    (maxR : Nat) :
    ∀ (repos : List Repo) (st : EngState),
      ∀ ev ∈ (processBatchOfRepos commitsOf kw maxR st repos).2.2, isFetchEvent ev = true := by
  intro repos
  induction repos with
  | nil =>
    intro st ev hev
    simp [processBatchOfRepos] at hev
  | cons r rs ih =>
    intro st ev hev
    simp only [processBatchOfRepos] at hev
    by_cases h : (processOneRepo commitsOf kw maxR st r).2.1 = true
    · rw [if_pos h] at hev
      exact processOneRepo_events commitsOf kw maxR st r ev hev
    · rw [if_neg h] at hev
      rcases List.mem_append.mp hev with h1 | h1
      · exact processOneRepo_events commitsOf kw maxR st r ev h1
      · exact ih _ ev h1

lemma chain_events (head : List Event) (x : EngState × Bool × List Event) (stop : Bool)
    (k : EngState → EngState × Bool × List Event) :
    ∀ ev ∈ (chain head x stop k).2.2, ev ∈ head ∨ ev ∈ x.2.2 ∨ ev ∈ (k x.1).2.2 := by
  intro ev hev
  unfold chain at hev
  by_cases h : stop = true
  · rw [if_pos h] at hev
    rcases List.mem_append.mp hev with h1 | h1
    · exact Or.inl h1
    · exact Or.inr (Or.inl h1)
  · rw [if_neg h] at hev
    rcases List.mem_append.mp hev with h1 | h1
    · rcases List.mem_append.mp h1 with h2 | h2
      · exact Or.inl h2
      · exact Or.inr (Or.inl h2)
    · exact Or.inr (Or.inr h1)

lemma weekLoop_saveFree (o : Oracles) (kw : String) (maxR : Nat) :
    ∀ (ws : List (Int × Int)) (st : EngState),
      ∀ ev ∈ (weekLoop o kw maxR st ws).2.2, isSaveEvent ev = false := by
  intro ws
  induction ws with
  | nil =>
    intro st ev hev
    simp [weekLoop] at hev
  | cons w ws ih =>
    intro st ev hev
    rw [weekLoop] at hev
    rcases chain_events _ _ _ _ ev hev with h | h | h
    · simp only [List.mem_singleton] at h
      rw [h]
      rfl
    · exact fetch_not_save ev (processBatch_events _ _ _ _ _ ev h)
    · exact ih _ ev h

lemma subLoop_saveFree (o : Oracles) (kw : String) (maxR : Nat) :
    ∀ (subs : List (Int × Int)) (st : EngState),
      ∀ ev ∈ (subLoop o kw maxR st subs).2.2, isSaveEvent ev = false := by
  intro subs
  induction subs with
  | nil =>
    intro st ev hev
    simp [subLoop] at hev
  | cons sub rest ih =>
    intro st ev hev
    rw [subLoop] at hev
    by_cases hs : (searchRepositoriesInDateRange (o.search sub)).needsSplit = true
    · rw [if_pos hs] at hev
      rcases chain_events _ _ _ _ ev hev with h | h | h
      · simp only [List.mem_singleton] at h
        rw [h]
        rfl
      · exact weekLoop_saveFree o kw maxR _ _ ev h
      · exact ih _ ev h
    · rw [if_neg hs] at hev
      rcases chain_events _ _ _ _ ev hev with h | h | h
      · simp only [List.mem_singleton] at h
        rw [h]
        rfl
      · exact fetch_not_save ev (processBatch_events _ _ _ _ _ ev h)
      · exact ih _ ev h

lemma segmentStep_saves (o : Oracles) (kw : String) (maxR : Nat) (st : EngState) (i : Nat)
    (seg : Int × Int) :
    ∀ ev ∈ (segmentStep o kw maxR st i seg).2.2, isSaveEvent ev = true →
      ev = Event.segmentUpdate (i+1) := by
  intro ev hev hsave
  unfold segmentStep at hev
  by_cases h1 : (searchRepositoriesInDateRange (o.search seg)).needsSplit = true
  · rw [if_pos h1] at hev
    rcases List.mem_append.mp hev with h | h
    · rcases List.mem_cons.mp h with h2 | h2
      · rw [h2] at hsave
        simp [isSaveEvent] at hsave
      · exact absurd hsave (by rw [subLoop_saveFree o kw maxR _ _ ev h2]; simp)
    · simp only [List.mem_singleton] at h
      exact h
  · rw [if_neg h1] at hev
    by_cases h2 : (processBatchOfRepos o.commitsOf kw maxR st
        (searchRepositoriesInDateRange (o.search seg)).repos).2.1 = true
    · rw [if_pos h2] at hev
      rcases List.mem_cons.mp hev with h3 | h3
      · rw [h3] at hsave
        simp [isSaveEvent] at hsave
      · exact absurd hsave
          (by rw [fetch_not_save ev (processBatch_events _ _ _ _ _ ev h3)]; simp)
    · rw [if_neg h2] at hev
      rcases List.mem_append.mp hev with h | h
      · rcases List.mem_cons.mp h with h3 | h3
        · rw [h3] at hsave
          simp [isSaveEvent] at hsave
        · exact absurd hsave
            (by rw [fetch_not_save ev (processBatch_events _ _ _ _ _ ev h3)]; simp)
      · simp only [List.mem_singleton] at h
        exact h

lemma segmentStep_update (o : Oracles) (kw : String) (maxR : Nat) (st : EngState) (i : Nat)
    (seg : Int × Int) (h : (segmentStep o kw maxR st i seg).2.1 = false) :
    Event.segmentUpdate (i+1) ∈ (segmentStep o kw maxR st i seg).2.2 := by
  unfold segmentStep at *
  by_cases h1 : (searchRepositoriesInDateRange (o.search seg)).needsSplit = true
  · rw [if_pos h1]
    simp
  · rw [if_neg h1] at *
    by_cases h2 : (processBatchOfRepos o.commitsOf kw maxR st
        (searchRepositoriesInDateRange (o.search seg)).repos).2.1 = true
    · rw [if_pos h2] at h
      simp at h
    · rw [if_neg h2]
      simp

lemma runSegments_saves (o : Oracles) (kw : String) (maxR : Nat) :
    ∀ (segs : List (Int × Int)) (st : EngState) (i : Nat),
      ∀ ev ∈ (runSegments o kw maxR st i segs).2, isSaveEvent ev = true →
        ∃ j, ev = Event.segmentUpdate j := by
  intro segs
  induction segs with
  | nil =>
    intro st i ev hev
    simp [runSegments] at hev
  | cons seg rest ih =>
    intro st i ev hev hsave
    rw [runSegments] at hev
    by_cases h : (segmentStep o kw maxR st i seg).2.1 = true
    · rw [if_pos h] at hev
      exact ⟨i+1, segmentStep_saves o kw maxR st i seg ev hev hsave⟩
    · rw [if_neg h] at hev
      rcases List.mem_append.mp hev with h1 | h1
      · exact ⟨i+1, segmentStep_saves o kw maxR st i seg ev h1 hsave⟩
      · exact ih _ (i+1) ev h1 hsave

/-- Oracles for the C1 counterexample: one small window with two fresh
repositories, both with an ok (empty) commits response. -/
def cexOraclesC1 : Oracles :=
  ⟨fun _ _ => HttpResult.ok ⟨2, [⟨"o/r1", 0⟩, ⟨"o/r2", 0⟩]⟩, fun _ => HttpResult.ok []⟩

/-- C1 counterexample: in a fresh run over one sub-range holding two
entities, the only checkpoint writes are the initial save and the
post-segment update — no save happens between the two fetchCommits events,
so the checkpoint is NOT saved before processing each individual entity (a
crash during the second entity would resume with a checkpoint that predates
the first entity). -/
theorem saveNotBeforeEachEntity_cex :
    (searchRepositoriesWithStatsFresh cexOraclesC1 "k" 100 [(0, 1)] []).2
      = [Event.initialStateSave, Event.searchSegment (0, 1),
         Event.fetchCommits "o/r1", Event.fetchCommits "o/r2",
         Event.segmentUpdate 1, Event.stateDelete]
    ∧ savedBeforeEachFetch
        (searchRepositoriesWithStatsFresh cexOraclesC1 "k" 100 [(0, 1)] []).2 = false := by
  constructor
  · decide
  · decide

/-- C1 amended: during a fresh run, the checkpoint is written exactly at the
run start (initial request_state insert) and by the per-top-level-segment
current_segment updates — every save event in the trace is one of those two;
batches emit only per-repo fetch events (no checkpoint write happens before
or between entities); and whenever a top-level segment iteration finishes
without stopping the run, its current_segment update is in the trace. -/
theorem checkpointSaves_amended :
    (∀ (o : Oracles) (kw : String) (maxR : Nat) (segs : List (Int × Int))
        (db0 : List EmailRow),
        (searchRepositoriesWithStatsFresh o kw maxR segs db0).2.head?
          = some Event.initialStateSave)
    ∧ (∀ (o : Oracles) (kw : String) (maxR : Nat) (segs : List (Int × Int))
         (db0 : List EmailRow),
        ∀ ev ∈ (searchRepositoriesWithStatsFresh o kw maxR segs db0).2,
          isSaveEvent ev = true →
          ev = Event.initialStateSave ∨ ∃ j, ev = Event.segmentUpdate j)
    ∧ (∀ (commitsOf : String → HttpResult (List Commit)) (kw : String) (maxR : Nat)
         (st : EngState) (repos : List Repo),
        ∀ ev ∈ (processBatchOfRepos commitsOf kw maxR st repos).2.2, isFetchEvent ev = true)
    ∧ (∀ (o : Oracles) (kw : String) (maxR : Nat) (st : EngState) (i : Nat)
         (seg : Int × Int),
        (segmentStep o kw maxR st i seg).2.1 = false →
        Event.segmentUpdate (i+1) ∈ (segmentStep o kw maxR st i seg).2.2) := by
  refine ⟨?_, ?_, ?_, ?_⟩
  · intro o kw maxR segs db0
    rfl
  · intro o kw maxR segs db0 ev hev hsave
    unfold searchRepositoriesWithStatsFresh at hev
    rcases List.mem_append.mp hev with h | h
    · rcases List.mem_cons.mp h with h1 | h1
      · exact Or.inl h1
      · exact Or.inr (runSegments_saves o kw maxR segs ⟨db0, [], [], 0⟩ 0 ev h1 hsave)
    · simp only [List.mem_singleton] at h
      rw [h] at hsave
      simp [isSaveEvent] at hsave
  · intro commitsOf kw maxR st repos
    exact processBatch_events commitsOf kw maxR repos st
  · intro o kw maxR st i seg h
    exact segmentStep_update o kw maxR st i seg h

/-- Witness for C1 amended: the post-segment update is present in the trace
of a concrete non-stopping segment iteration. -/
theorem checkpointSaves_amended_witness :
    Event.segmentUpdate 1 ∈
      (segmentStep ⟨fun _ _ => HttpResult.ok ⟨0, []⟩, fun _ => HttpResult.ok []⟩ "k" 100
        ⟨[], [], [], 0⟩ 0 (0, 1)).2.2 :=
  checkpointSaves_amended.2.2.2 ⟨fun _ _ => HttpResult.ok ⟨0, []⟩, fun _ => HttpResult.ok []⟩
    "k" 100 ⟨[], [], [], 0⟩ 0 (0, 1) (by decide)

/-- Oracles for the C4 counterexample: every window reports one repository
(o/r1) and its commits fetch succeeds with no commits. -/
def cexOraclesC4 : Oracles :=
  ⟨fun _ _ => HttpResult.ok ⟨1, [⟨"o/r1", 0⟩]⟩, fun _ => HttpResult.ok []⟩

/-- C4 counterexample: with MAX_RESULTS = 1 and two planned sub-ranges, the
run stops after the first entity of the first sub-range and still deletes
the request_state row on its way out — the second sub-range is never
fetched, so after this error-free run the absence of a checkpoint does NOT
imply that every planned sub-range was processed. -/
theorem checkpointDeleted_earlyStop_cex :
    (searchRepositoriesWithStatsFresh cexOraclesC4 "k" 1 [(0, 1), (2, 3)] []).2
      = [Event.initialStateSave, Event.searchSegment (0, 1), Event.fetchCommits "o/r1",
         Event.stateDelete]
    ∧ Event.searchSegment (2, 3) ∉
        (searchRepositoriesWithStatsFresh cexOraclesC4 "k" 1 [(0, 1), (2, 3)] []).2 := by
  constructor
  · decide
  · decide

/-- C4 amended: every modelled run that terminates without a raised error —
including runs stopped early by the MAX_RESULTS cap — ends by deleting the
request_state row; so after an error-free run the checkpoint is always
absent, and its absence does not certify that the whole planned sub-range
sequence was fetched and processed. -/
theorem stateDeleted_onErrorFreeRun (o : Oracles) (kw : String) (maxR : Nat)
    (segs : List (Int × Int)) (db0 : List EmailRow) :
    (searchRepositoriesWithStatsFresh o kw maxR segs db0).2.getLast?
      = some Event.stateDelete := by
  unfold searchRepositoriesWithStatsFresh
  exact List.getLast?_concat _

lemma processOneRepo_count_le (commitsOf : String → HttpResult (List Commit)) (kw : String)
    (maxR : Nat) (st : EngState) (r : Repo) :
    (processOneRepo commitsOf kw maxR st r).1.totalProcessed ≤ st.totalProcessed + 1
    ∧ st.totalProcessed ≤ (processOneRepo commitsOf kw maxR st r).1.totalProcessed := by
  unfold processOneRepo
  by_cases h1 : st.seen.any (fun k => k == r.full_name) = true
  · rw [if_pos h1]
    exact ⟨Nat.le_succ _, le_refl _⟩
  · rw [if_neg h1]
    by_cases h2 : isRepoProcessed st.db r.full_name = true
    · rw [if_pos h2]
      exact ⟨Nat.le_succ _, le_refl _⟩
    · rw [if_neg h2]
      cases hcf : commitsOf r.full_name with
      | err s => exact ⟨le_refl _, Nat.le_succ _⟩
      | ok cs => exact ⟨le_refl _, Nat.le_succ _⟩

lemma processOneRepo_stop_ge (commitsOf : String → HttpResult (List Commit)) (kw : String)
    (maxR : Nat) (st : EngState) (r : Repo)
    (h : (processOneRepo commitsOf kw maxR st r).2.1 = true) :
    maxR ≤ (processOneRepo commitsOf kw maxR st r).1.totalProcessed := by
  unfold processOneRepo at *
  by_cases h1 : st.seen.any (fun k => k == r.full_name) = true
  · rw [if_pos h1] at h
    simp at h
  · rw [if_neg h1] at *
    by_cases h2 : isRepoProcessed st.db r.full_name = true
    · rw [if_pos h2] at h
      simp at h
    · rw [if_neg h2] at *
      cases hcf : commitsOf r.full_name with
      | err s =>
        rw [hcf] at h
        simp at h
      | ok cs =>
        rw [hcf] at h
        show maxR ≤ st.totalProcessed + 1
        exact of_decide_eq_true h

lemma processOneRepo_continue_lt (commitsOf : String → HttpResult (List Commit)) (kw : String)
    (maxR : Nat) (st : EngState) (r : Repo)
    (hok : ∀ n, ∃ cs, commitsOf n = HttpResult.ok cs)
    (hlt : st.totalProcessed < maxR)
    (h : (processOneRepo commitsOf kw maxR st r).2.1 = false) :
    (processOneRepo commitsOf kw maxR st r).1.totalProcessed < maxR := by
  unfold processOneRepo at *
  by_cases h1 : st.seen.any (fun k => k == r.full_name) = true
  · rw [if_pos h1]
    exact hlt
  · rw [if_neg h1] at *
    by_cases h2 : isRepoProcessed st.db r.full_name = true
    · rw [if_pos h2]
      exact hlt
    · rw [if_neg h2] at *
      obtain ⟨cs, hcf⟩ := hok r.full_name
      rw [hcf] at h ⊢
      have hx : ¬ maxR ≤ st.totalProcessed + 1 := of_decide_eq_false h
      show st.totalProcessed + 1 < maxR
      omega

lemma processBatch_bound (commitsOf : String → HttpResult (List Commit)) (kw : String)
    (maxR : Nat) (hok : ∀ n, ∃ cs, commitsOf n = HttpResult.ok cs) :
    ∀ (repos : List Repo) (st : EngState), st.totalProcessed < maxR →
      (processBatchOfRepos commitsOf kw maxR st repos).1.totalProcessed ≤ maxR
      ∧ ((processBatchOfRepos commitsOf kw maxR st repos).2.1 = false →
          (processBatchOfRepos commitsOf kw maxR st repos).1.totalProcessed < maxR) := by
  intro repos
  induction repos with
  | nil =>
    intro st hlt
    exact ⟨le_of_lt hlt, fun _ => hlt⟩
  | cons r rs ih =>
    intro st hlt
    simp only [processBatchOfRepos]
    by_cases h : (processOneRepo commitsOf kw maxR st r).2.1 = true
    · rw [if_pos h]
      constructor
      · have hc := (processOneRepo_count_le commitsOf kw maxR st r).1
        show (processOneRepo commitsOf kw maxR st r).1.totalProcessed ≤ maxR
        omega
      · intro hfalse
        simp at hfalse
    · rw [if_neg h]
      have hcont := processOneRepo_continue_lt commitsOf kw maxR st r hok hlt
        (by simpa using h)
      exact ih _ hcont

lemma processBatch_stop_ge (commitsOf : String → HttpResult (List Commit)) (kw : String)
    (maxR : Nat) :
    ∀ (repos : List Repo) (st : EngState),
      (processBatchOfRepos commitsOf kw maxR st repos).2.1 = true →
      maxR ≤ (processBatchOfRepos commitsOf kw maxR st repos).1.totalProcessed := by
  intro repos
  induction repos with
  | nil =>
    intro st h
    simp [processBatchOfRepos] at h
  | cons r rs ih =>
    intro st h
    simp only [processBatchOfRepos] at *
    by_cases h1 : (processOneRepo commitsOf kw maxR st r).2.1 = true
    · rw [if_pos h1]
      exact processOneRepo_stop_ge commitsOf kw maxR st r h1
    · rw [if_neg h1] at *
      exact ih _ h

lemma weekLoop_bound (o : Oracles) (kw : String) (maxR : Nat)
    (hok : ∀ n, ∃ cs, o.commitsOf n = HttpResult.ok cs) :
    ∀ (ws : List (Int × Int)) (st : EngState), st.totalProcessed < maxR →
      (weekLoop o kw maxR st ws).1.totalProcessed ≤ maxR
      ∧ ((weekLoop o kw maxR st ws).2.1 = false →
          (weekLoop o kw maxR st ws).1.totalProcessed < maxR) := by
  intro ws
  induction ws with
  | nil =>
    intro st hlt
    exact ⟨le_of_lt hlt, fun _ => hlt⟩
  | cons w ws ih =>
    intro st hlt
    rw [weekLoop]
    unfold chain
    have hb := processBatch_bound o.commitsOf kw maxR hok
      (searchRepositoriesInDateRange (o.search w)).repos st hlt
    by_cases hstop : (processBatchOfRepos o.commitsOf kw maxR st
        (searchRepositoriesInDateRange (o.search w)).repos).2.1 = true
    · rw [if_pos hstop]
      refine ⟨hb.1, ?_⟩
      intro hfalse
      simp at hfalse
    · rw [if_neg hstop]
      exact ih _ (hb.2 (by simpa using hstop))

lemma subLoop_bound (o : Oracles) (kw : String) (maxR : Nat)
    (hok : ∀ n, ∃ cs, o.commitsOf n = HttpResult.ok cs) :
    ∀ (subs : List (Int × Int)) (st : EngState), st.totalProcessed < maxR →
      (subLoop o kw maxR st subs).1.totalProcessed ≤ maxR
      ∧ ((subLoop o kw maxR st subs).2.1 = false →
          (subLoop o kw maxR st subs).1.totalProcessed < maxR) := by
  intro subs
  induction subs with
  | nil =>
    intro st hlt
    exact ⟨le_of_lt hlt, fun _ => hlt⟩
  | cons sub rest ih =>
    intro st hlt
    rw [subLoop]
    by_cases h1 : (searchRepositoriesInDateRange (o.search sub)).needsSplit = true
    · rw [if_pos h1]
      unfold chain
      have hw := weekLoop_bound o kw maxR hok (generateDateSegments sub.1 sub.2 7) st hlt
      by_cases hstop : ((weekLoop o kw maxR st (generateDateSegments sub.1 sub.2 7)).2.1
          || decide (maxR ≤
            (weekLoop o kw maxR st (generateDateSegments sub.1 sub.2 7)).1.totalProcessed))
          = true
      · rw [if_pos hstop]
        refine ⟨hw.1, ?_⟩
        intro hfalse
        simp at hfalse
      · rw [if_neg hstop]
        have hh := hstop
        simp only [Bool.or_eq_true, not_or, Bool.not_eq_true, decide_eq_false_iff_not,
          not_le] at hh
        exact ih _ hh.2
    · rw [if_neg h1]
      unfold chain
      have hb := processBatch_bound o.commitsOf kw maxR hok
        (searchRepositoriesInDateRange (o.search sub)).repos st hlt
      by_cases hstop : ((processBatchOfRepos o.commitsOf kw maxR st
            (searchRepositoriesInDateRange (o.search sub)).repos).2.1
          || decide (maxR ≤ (processBatchOfRepos o.commitsOf kw maxR st
            (searchRepositoriesInDateRange (o.search sub)).repos).1.totalProcessed)) = true
      · rw [if_pos hstop]
        refine ⟨hb.1, ?_⟩
        intro hfalse
        simp at hfalse
      · rw [if_neg hstop]
        have hh := hstop
        simp only [Bool.or_eq_true, not_or, Bool.not_eq_true, decide_eq_false_iff_not,
          not_le] at hh
        exact ih _ hh.2

lemma segmentStep_bound (o : Oracles) (kw : String) (maxR : Nat)
    (hok : ∀ n, ∃ cs, o.commitsOf n = HttpResult.ok cs) (st : EngState) (i : Nat)
    (seg : Int × Int) (hlt : st.totalProcessed < maxR) :
    (segmentStep o kw maxR st i seg).1.totalProcessed ≤ maxR
    ∧ ((segmentStep o kw maxR st i seg).2.1 = false →
        (segmentStep o kw maxR st i seg).1.totalProcessed < maxR) := by
  unfold segmentStep
  by_cases h1 : (searchRepositoriesInDateRange (o.search seg)).needsSplit = true
  · rw [if_pos h1]
    have hs := subLoop_bound o kw maxR hok (generateDateSegments seg.1 seg.2 30) st hlt
    refine ⟨hs.1, ?_⟩
    intro hfalse
    have hx : ¬ maxR ≤
        (subLoop o kw maxR st (generateDateSegments seg.1 seg.2 30)).1.totalProcessed :=
      of_decide_eq_false hfalse
    show (subLoop o kw maxR st (generateDateSegments seg.1 seg.2 30)).1.totalProcessed < maxR
    omega
  · rw [if_neg h1]
    have hb := processBatch_bound o.commitsOf kw maxR hok
      (searchRepositoriesInDateRange (o.search seg)).repos st hlt
    by_cases h2 : (processBatchOfRepos o.commitsOf kw maxR st
        (searchRepositoriesInDateRange (o.search seg)).repos).2.1 = true
    · rw [if_pos h2]
      refine ⟨hb.1, ?_⟩
      intro hfalse
      simp at hfalse
    · rw [if_neg h2]
      refine ⟨hb.1, ?_⟩
      intro hfalse
      have hx : ¬ maxR ≤ (processBatchOfRepos o.commitsOf kw maxR st
          (searchRepositoriesInDateRange (o.search seg)).repos).1.totalProcessed :=
        of_decide_eq_false hfalse
      show (processBatchOfRepos o.commitsOf kw maxR st
          (searchRepositoriesInDateRange (o.search seg)).repos).1.totalProcessed < maxR
      omega

lemma runSegments_bound (o : Oracles) (kw : String) (maxR : Nat)
    (hok : ∀ n, ∃ cs, o.commitsOf n = HttpResult.ok cs) :
    ∀ (segs : List (Int × Int)) (st : EngState) (i : Nat), st.totalProcessed < maxR →
      (runSegments o kw maxR st i segs).1.totalProcessed ≤ maxR := by
  intro segs
  induction segs with
  | nil =>
    intro st i hlt
    exact le_of_lt hlt
  | cons seg rest ih =>
    intro st i hlt
    rw [runSegments]
    have hs := segmentStep_bound o kw maxR hok st i seg hlt
    by_cases h : (segmentStep o kw maxR st i seg).2.1 = true
    · rw [if_pos h]
      exact hs.1
    · rw [if_neg h]
      exact ih _ (i+1) (hs.2 (by simpa using h))

/-- Oracles for the C10 counterexample: one window with two fresh repos;
o/r1 answers 404 to the commits fetch, o/r2 succeeds with no commits. -/
def cexOraclesC10 : Oracles :=
  ⟨fun _ _ => HttpResult.ok ⟨2, [⟨"o/r1", 0⟩, ⟨"o/r2", 0⟩]⟩,
   fun n => if n == "o/r1" then HttpResult.err 404 else HttpResult.ok []⟩

/-- C10 counterexample: with MAX_RESULTS = 1, the first entity's non-ok
commits fetch increments the counter to the cap but its `continue` skips the
cap check, so the engine still fetches the second entity: the final count is
2 > 1 and the second fetch is in the trace — the engine did not stop once
the count of processed entities reached MAX_RESULTS. -/
theorem maxResults_exceeded_cex :
    (searchRepositoriesWithStatsFresh cexOraclesC10 "k" 1 [(0, 1)] []).1.totalProcessed = 2
    ∧ Event.fetchCommits "o/r2" ∈
        (searchRepositoriesWithStatsFresh cexOraclesC10 "k" 1 [(0, 1)] []).2 := by
  constructor
  · decide
  · decide

/-- C10 amended: the engine checks the cap only after an entity whose
commits fetch returned ok (a non-ok response reaches `continue`, skipping
the check), so: when every commits fetch succeeds and MAX_RESULTS >= 1 a run
never counts more than MAX_RESULTS processed entities; whenever a batch
reports stop the counter has reached MAX_RESULTS; and once a segment
iteration reports stop the segment loop ends at once, leaving the remaining
planned sub-ranges unvisited. -/
theorem maxResultsCap_amended :
    (∀ (o : Oracles) (kw : String) (maxR : Nat) (segs : List (Int × Int))
        (db0 : List EmailRow),
        (∀ n, ∃ cs, o.commitsOf n = HttpResult.ok cs) → 1 ≤ maxR →
        (searchRepositoriesWithStatsFresh o kw maxR segs db0).1.totalProcessed ≤ maxR)
    ∧ (∀ (commitsOf : String → HttpResult (List Commit)) (kw : String) (maxR : Nat)
         (st : EngState) (repos : List Repo),
        (processBatchOfRepos commitsOf kw maxR st repos).2.1 = true →
        maxR ≤ (processBatchOfRepos commitsOf kw maxR st repos).1.totalProcessed)
    ∧ (∀ (o : Oracles) (kw : String) (maxR : Nat) (st : EngState) (i : Nat)
         (seg : Int × Int) (rest : List (Int × Int)),
        (segmentStep o kw maxR st i seg).2.1 = true →
        runSegments o kw maxR st i (seg :: rest)
          = ((segmentStep o kw maxR st i seg).1, (segmentStep o kw maxR st i seg).2.2)) := by
  refine ⟨?_, ?_, ?_⟩
  · intro o kw maxR segs db0 hok hmax
    exact runSegments_bound o kw maxR hok segs ⟨db0, [], [], 0⟩ 0 (by show 0 < maxR; omega)
  · intro commitsOf kw maxR st repos h
    exact processBatch_stop_ge commitsOf kw maxR repos st h
  · intro o kw maxR st i seg rest h
    rw [runSegments, if_pos h]

/-- Witness for C10 amended: an all-ok run with MAX_RESULTS = 1 over a
window holding two repositories processes at most one. -/
theorem maxResultsCap_amended_witness :
    (searchRepositoriesWithStatsFresh
        ⟨fun _ _ => HttpResult.ok ⟨2, [⟨"w/r1", 0⟩, ⟨"w/r2", 0⟩]⟩, fun _ => HttpResult.ok []⟩
        "k" 1 [(0, 1)] []).1.totalProcessed ≤ 1 :=
  maxResultsCap_amended.1
    ⟨fun _ _ => HttpResult.ok ⟨2, [⟨"w/r1", 0⟩, ⟨"w/r2", 0⟩]⟩, fun _ => HttpResult.ok []⟩
    "k" 1 [(0, 1)] [] (fun _ => ⟨[], rfl⟩) (by decide)

lemma search_needsSplit_nil (pages : Nat → HttpResult SearchPage)
    (h : (searchRepositoriesInDateRange pages).needsSplit = true) :
    (searchRepositoriesInDateRange pages).repos = [] := by
  unfold searchRepositoriesInDateRange at *
  cases hp : pages 1 with
  | err s =>
    rfl
  | ok d1 =>
    rw [hp] at h
    have h2 : (if 1000 < d1.totalCount then (⟨[], true, d1.totalCount⟩ : SearchResult)
          else if d1.items.length == 100 then
            match fetchLoop pages 9 2 d1.items with
            | none => ⟨[], false, 0⟩
            | some repos => ⟨repos, false, d1.totalCount⟩
          else ⟨d1.items, false, d1.totalCount⟩).needsSplit = true := h
    show (if 1000 < d1.totalCount then (⟨[], true, d1.totalCount⟩ : SearchResult)
          else if d1.items.length == 100 then
            match fetchLoop pages 9 2 d1.items with
            | none => ⟨[], false, 0⟩
            | some repos => ⟨repos, false, d1.totalCount⟩
          else ⟨d1.items, false, d1.totalCount⟩).repos = []
    by_cases hc : 1000 < d1.totalCount
    · rw [if_pos hc]
    · rw [if_neg hc] at h2 ⊢
      by_cases hl : (d1.items.length == 100) = true
      · rw [if_pos hl] at h2 ⊢
        cases hf : fetchLoop pages 9 2 d1.items with
        | none => rfl
        | some repos =>
          try rw [hf] at h2
          exact absurd h2 (by simp)
      · rw [if_neg hl] at h2
        exact absurd h2 (by simp)

lemma chain_head_mem (head : List Event) (x : EngState × Bool × List Event) (stop : Bool)
    (k : EngState → EngState × Bool × List Event) (ev : Event) (h : ev ∈ head) :
    ev ∈ (chain head x stop k).2.2 := by
  unfold chain
  by_cases hs : stop = true
  · rw [if_pos hs]
    exact List.mem_append_left _ h
  · rw [if_neg hs]
    exact List.mem_append_left _ (List.mem_append_left _ h)

lemma chain_x_mem (head : List Event) (x : EngState × Bool × List Event) (stop : Bool)
    (k : EngState → EngState × Bool × List Event) (ev : Event) (h : ev ∈ x.2.2) :
    ev ∈ (chain head x stop k).2.2 := by
  unfold chain
  by_cases hs : stop = true
  · rw [if_pos hs]
    exact List.mem_append_right _ h
  · rw [if_neg hs]
    exact List.mem_append_left _ (List.mem_append_right _ h)

lemma subLoop_head_search (o : Oracles) (kw : String) (maxR : Nat) (st : EngState)
    (sub : Int × Int) (subs : List (Int × Int)) :
    Event.searchSegment sub ∈ (subLoop o kw maxR st (sub :: subs)).2.2 := by
  rw [subLoop]
  by_cases h : (searchRepositoriesInDateRange (o.search sub)).needsSplit = true
  · rw [if_pos h]
    exact chain_head_mem _ _ _ _ _ (by simp)
  · rw [if_neg h]
    exact chain_head_mem _ _ _ _ _ (by simp)

lemma weekLoop_head_search (o : Oracles) (kw : String) (maxR : Nat) (st : EngState)
    (w : Int × Int) (ws : List (Int × Int)) :
    Event.searchSegment w ∈ (weekLoop o kw maxR st (w :: ws)).2.2 := by
  rw [weekLoop]
  exact chain_head_mem _ _ _ _ _ (by simp)

/-- Oracles for the C7 counterexample: every window probes at 1500 results
(over the 1000 ceiling) even though one repository is available. -/
def cexOraclesC7 : Oracles :=
  ⟨fun _ _ => HttpResult.ok ⟨1500, [⟨"o/full", 9⟩]⟩, fun _ => HttpResult.ok []⟩

/-- C7 counterexample: a 7-day planned window whose probe stays at 1500 at
every subdivision level is re-probed at the 30-day and the 7-day level and
then skipped entirely — the run processes zero entities from it and never
fetches the available repository, instead of accepting the window with
truncation as the claim states. -/
theorem overCeilingWeek_skipped_cex :
    (searchRepositoriesWithStatsFresh cexOraclesC7 "k" 100 [(0, 6)] []).2
      = [Event.initialStateSave, Event.searchSegment (0, 6), Event.searchSegment (0, 6),
         Event.searchSegment (0, 6), Event.segmentUpdate 1, Event.stateDelete]
    ∧ (searchRepositoriesWithStatsFresh cexOraclesC7 "k" 100 [(0, 6)] []).1.totalProcessed = 0
    ∧ Event.fetchCommits "o/full" ∉
        (searchRepositoriesWithStatsFresh cexOraclesC7 "k" 100 [(0, 6)] []).2 := by
  refine ⟨by decide, by decide, by decide⟩

/-- C7 amended: an over-ceiling window is never fetched unsplit — whenever
the probe reports needsSplit the fetcher returns zero repositories, and a
probe count above 1000 yields exactly that needsSplit result; the engine
then subdivides: an over-ceiling top-level segment searches the first of its
30-day sub-windows, an over-ceiling sub-window searches the first of its
7-day windows; and at the minimum (7-day) size an over-ceiling window is
skipped outright — it contributes zero entities and no commit fetches,
leaves the state untouched and does not stop the run (skipped silently, not
fatal, but not truncated either). -/
theorem ceilingSubdivision_amended :
    (∀ pages : Nat → HttpResult SearchPage,
        (searchRepositoriesInDateRange pages).needsSplit = true →
        (searchRepositoriesInDateRange pages).repos = [])
    ∧ (∀ (pages : Nat → HttpResult SearchPage) (d1 : SearchPage),
        pages 1 = HttpResult.ok d1 → 1000 < d1.totalCount →
        searchRepositoriesInDateRange pages = ⟨[], true, d1.totalCount⟩)
    ∧ (∀ (o : Oracles) (kw : String) (maxR : Nat) (st : EngState) (i : Nat)
         (seg s2 : Int × Int) (r2 : List (Int × Int)),
        (searchRepositoriesInDateRange (o.search seg)).needsSplit = true →
        generateDateSegments seg.1 seg.2 30 = s2 :: r2 →
        Event.searchSegment s2 ∈ (segmentStep o kw maxR st i seg).2.2)
    ∧ (∀ (o : Oracles) (kw : String) (maxR : Nat) (st : EngState)
         (sub : Int × Int) (subs : List (Int × Int)) (w : Int × Int) (ws : List (Int × Int)),
        (searchRepositoriesInDateRange (o.search sub)).needsSplit = true →
        generateDateSegments sub.1 sub.2 7 = w :: ws →
        Event.searchSegment w ∈ (subLoop o kw maxR st (sub :: subs)).2.2)
    ∧ (∀ (o : Oracles) (kw : String) (maxR : Nat) (st : EngState)
         (w : Int × Int) (ws : List (Int × Int)),
        (searchRepositoriesInDateRange (o.search w)).needsSplit = true →
        weekLoop o kw maxR st (w :: ws)
          = ((weekLoop o kw maxR st ws).1, (weekLoop o kw maxR st ws).2.1,
             Event.searchSegment w :: (weekLoop o kw maxR st ws).2.2)) := by
  refine ⟨?_, ?_, ?_, ?_, ?_⟩
  · intro pages h
    exact search_needsSplit_nil pages h
  · intro pages d1 h1 hc
    unfold searchRepositoriesInDateRange
    rw [h1]
    show (if 1000 < d1.totalCount then (⟨[], true, d1.totalCount⟩ : SearchResult)
          else if d1.items.length == 100 then
            match fetchLoop pages 9 2 d1.items with
            | none => ⟨[], false, 0⟩
            | some repos => ⟨repos, false, d1.totalCount⟩
          else ⟨d1.items, false, d1.totalCount⟩) = ⟨[], true, d1.totalCount⟩
    rw [if_pos hc]
  · intro o kw maxR st i seg s2 r2 hsplit hgen
    unfold segmentStep
    rw [if_pos hsplit, hgen]
    refine List.mem_append_left _ (List.mem_cons_of_mem _ ?_)
    exact subLoop_head_search o kw maxR st s2 r2
  · intro o kw maxR st sub subs w ws hsplit hgen
    rw [subLoop, if_pos hsplit, hgen]
    exact chain_x_mem _ _ _ _ _ (weekLoop_head_search o kw maxR st w ws)
  · intro o kw maxR st w ws hsplit
    rw [weekLoop]
    rw [search_needsSplit_nil (o.search w) hsplit]
    have hb : (processBatchOfRepos o.commitsOf kw maxR st ([] : List Repo)).2.1 = false := rfl
    unfold chain
    rw [if_neg (by rw [hb]; simp)]
    simp [processBatchOfRepos]

/-- Witness for C7 amended: a probe of 1500 on a concrete window produces
the zero-repo needsSplit result. -/
theorem ceilingSubdivision_amended_witness :
    searchRepositoriesInDateRange (fun _ => HttpResult.ok ⟨1500, []⟩) = ⟨[], true, 1500⟩ :=
  ceilingSubdivision_amended.2.1 (fun _ => HttpResult.ok ⟨1500, []⟩) ⟨1500, []⟩ rfl
    (by decide)

/-! ## The error path of searchRepositoriesWithStats (scrape.js 665-672)

JS source of the catch block:
    } catch (error) {
      console.error("Error fetching data:", error.message);
      // Save current state to allow resuming from this point
      if (currentSegment > 0 || totalReposProcessed > 0) {
        await saveProcessingState(keyword, dateSegments || [], currentSegment,
          totalReposProcessed, totalReposProcessed);
        console.log("... State saved at segment ...");
      }
    }

Scoping: currentSegment is declared with let at function level (line 431),
so it is visible inside the catch block.  totalReposProcessed is declared
with let INSIDE the try block (line 471); a let binding is scoped to its
enclosing block, so that identifier is NOT in scope in the catch block and
reading it throws a ReferenceError.  The || short-circuits, but when
currentSegment > 0 is true the argument list of the saveProcessingState
call still reads totalReposProcessed, so the ReferenceError fires on every
path before any state can be written.  Note the catch block also never
rethrows: had it completed, the original error would have been swallowed. -/

/-- Variables in scope inside the catch block with their values: only the
function-scoped currentSegment; totalReposProcessed is block-scoped to the
try block and hence absent. -/
def catchScope (currentSegment : Int) : List (String × Int) :=
  [("currentSegment", currentSegment)]

def lookupVar (env : List (String × Int)) (x : String) : Option Int :=
  (env.find? (fun p => p.1 == x)).map (fun p => p.2)

/-- Outcome of the catch block body after the console.error line: the
saveProcessingState call happened with the given (currentSegment,
currentRepoIndex, totalReposFound) numeric arguments, or nothing was saved,
or the block itself raised a ReferenceError on the named identifier. -/
inductive CatchOutcome
  | saved (args : Int × Int × Int)
  | notSaved
  | referenceError (name : String)
deriving Repr, DecidableEq

/-- Evaluation of the catch block of scrape.js lines 665-672 under JS
scoping rules: evaluate currentSegment > 0; when true, evaluate the
saveProcessingState arguments (which read totalReposProcessed); when false,
evaluate the right operand of || (which also reads totalReposProcessed).
Reading an identifier that is not in scope raises ReferenceError. -/
def catchBlockModel (currentSegment : Int) : CatchOutcome :=
  match lookupVar (catchScope currentSegment) "currentSegment" with
  | none => CatchOutcome.referenceError "currentSegment"
  | some cs =>
    if 0 < cs then
      match lookupVar (catchScope currentSegment) "totalReposProcessed" with
      | none => CatchOutcome.referenceError "totalReposProcessed"
      | some t => CatchOutcome.saved (cs, t, t)
    else
      match lookupVar (catchScope currentSegment) "totalReposProcessed" with
      | none => CatchOutcome.referenceError "totalReposProcessed"
      | some t =>
        if 0 < t then CatchOutcome.saved (cs, t, t) else CatchOutcome.notSaved

/-- C2 (code bug): for every currentSegment value, the error handler of
searchRepositoriesWithStats raises ReferenceError on totalReposProcessed
(block-scoped to the try block) before saveProcessingState can run — on the
error path the checkpoint is never persisted by the handler, and the error
that propagates upward is the ReferenceError, not the original one. -/
theorem catchBlock_referenceError (currentSegment : Int) :
    catchBlockModel currentSegment = CatchOutcome.referenceError "totalReposProcessed" := by
  show (if 0 < currentSegment then CatchOutcome.referenceError "totalReposProcessed"
        else CatchOutcome.referenceError "totalReposProcessed")
      = CatchOutcome.referenceError "totalReposProcessed"
  by_cases h : (0:Int) < currentSegment
  · rw [if_pos h]
  · rw [if_neg h]
